import Mathlib

/-!
# Verification of the Tetris debug harness (`sim_verilator/game_plate.cpp`)

The harness drives a Verilated module `Vgame_plate` through a
`TestWrapper<Vgame_plate>`.  Neither the module nor `test_template.hpp` is part
of the sources, so the device's combinational `eval`, the wrapper's `tick` and
`reset`, and the numeric values of the opcode enumeration are parameters of the
embedding (`TestWrapper`).  The harness code itself (`displayCurrentInfo` and
`main`) is embedded statement by statement as state-passing functions over
`Harness`, which carries the device, the unread standard input, the characters
written to standard output and a ghost log of the operations performed on the
device.
-/

namespace Tetris

/-! ## Data model -/

/-- The input pins of `Vgame_plate` that the harness assigns. -/
inductive Pin where
  | clk_i
  | reset_i
  | opcode_i
  | opcode_v_i
  | dis_logic_x_i
  | dis_logic_y_i
deriving DecidableEq, Repr

/-- Values of the input pins. -/
structure In where
  clk_i : Nat
  reset_i : Nat
  opcode_i : Nat
  opcode_v_i : Nat
  dis_logic_x_i : Nat
  dis_logic_y_i : Nat
deriving DecidableEq, Repr

/-- Values of the output pins the harness reads; it only tests them for
being non-zero, so they are booleans here. -/
structure Out where
  dis_logic_mm_o : Bool
  dis_logic_cm_o : Bool
  done_o : Bool
deriving DecidableEq, Repr

/-- The Verilated device: its pins and its internal state `σ`. -/
structure Dut (σ : Type) where
  inp : In
  out : Out
  st : σ

/-- The members of `Vgame_plate_tetris` the harness uses. -/
inductive Opcode where
  | eNop
  | eNew
  | eMoveDown
  | eMoveLeft
  | eMoveRight
  | eRotate
  | eCommit
  | eCheck
deriving DecidableEq, Repr, Fintype

/-- The parts of the program that are not in the sources: `Vgame_plate::eval`
(reads the input pins, updates the internal state and the output pins, never
assigns an input pin), `TestWrapper::tick` (its argument is `none` where the
call site leaves it defaulted), `TestWrapper::reset`, the freshly constructed
device, and the numeric values of the `Vgame_plate_tetris` enumerators. -/
structure TestWrapper (σ : Type) where
  eval : In → σ → σ × Out
  tick : Option Bool → Dut σ → Dut σ
  reset : Dut σ → Dut σ
  fresh : Dut σ
  enc : Opcode → Nat

/-- One operation performed on the device (ghost log entry). -/
inductive Ev where
  | write (p : Pin) (v : Nat)
  | eval (inp : In)
  | tick
  | reset
  | readDone (b : Bool)
  | display
deriving DecidableEq, Repr

/-- The state of the running harness. -/
structure Harness (σ : Type) where
  dut : Dut σ
  stdin : List Char
  stdout : List Char
  log : List Ev

/-- Assignment to one input pin. -/
def In.set (p : Pin) (v : Nat) (i : In) : In :=
  match p with
  | .clk_i => { i with clk_i := v }
  | .reset_i => { i with reset_i := v }
  | .opcode_i => { i with opcode_i := v }
  | .opcode_v_i => { i with opcode_v_i := v }
  | .dis_logic_x_i => { i with dis_logic_x_i := v }
  | .dis_logic_y_i => { i with dis_logic_y_i := v }

variable {σ : Type}

/-! ## Primitive statements -/

/-- The statement `dut->pin = v`. -/
def poke (p : Pin) (v : Nat) (h : Harness σ) : Harness σ :=
  { h with dut := { h.dut with inp := h.dut.inp.set p v }, log := h.log ++ [Ev.write p v] }

/-- The statement `dut->eval()`. -/
def evalH (W : TestWrapper σ) (h : Harness σ) : Harness σ :=
  { h with
    dut := { h.dut with st := (W.eval h.dut.inp h.dut.st).1, out := (W.eval h.dut.inp h.dut.st).2 },
    log := h.log ++ [Ev.eval h.dut.inp] }

/-- The statement `wrapper.tick(...)`. -/
def tickH (W : TestWrapper σ) (dump : Option Bool) (h : Harness σ) : Harness σ :=
  { h with dut := W.tick dump h.dut, log := h.log ++ [Ev.tick] }

/-- The statement `wrapper.reset()`. -/
def resetH (W : TestWrapper σ) (h : Harness σ) : Harness σ :=
  { h with dut := W.reset h.dut, log := h.log ++ [Ev.reset] }

/-- The call `printf(s)` with a format string free of conversions. -/
def printf (s : String) (h : Harness σ) : Harness σ :=
  { h with stdout := h.stdout ++ s.toList }

/-- The call `puts(s)`: the string and a newline. -/
def puts (s : String) (h : Harness σ) : Harness σ :=
  { h with stdout := h.stdout ++ s.toList ++ ['\n'] }

/-- A counted loop `for (int i = 0; i < n; ++i) body(i)`. -/
def forLoop (n : Nat) (body : Nat → Harness σ → Harness σ) (h : Harness σ) : Harness σ :=
  (List.range n).foldl (fun acc i => body i acc) h

/-! ## `displayCurrentInfo` -/

/-- Body of the inner loop of `displayCurrentInfo` (lines 12-19). -/
def displayCell (W : TestWrapper σ) (j : Nat) (h : Harness σ) : Harness σ :=
  let h1 := poke Pin.dis_logic_x_i j h
  let h2 := evalH W h1
  if h2.dut.out.dis_logic_mm_o then printf "1" h2
  else if h2.dut.out.dis_logic_cm_o then printf "*" h2
  else printf "0" h2

/-- Body of the outer loop of `displayCurrentInfo` (lines 10-21). -/
def displayRow (W : TestWrapper σ) (i : Nat) (h : Harness σ) : Harness σ :=
  let h1 := poke Pin.dis_logic_y_i i h
  let h2 := forLoop 16 (displayCell W) h1
  puts "" h2

/-- The function `displayCurrentInfo` (lines 7-23); the ghost event
`Ev.display` marks the call. -/
def displayCurrentInfo (W : TestWrapper σ) (h : Harness σ) : Harness σ :=
  let h0 : Harness σ := { h with log := h.log ++ [Ev.display] }
  let h1 := puts "Board Info:" h0
  forLoop 32 (displayRow W) h1

/-! ## `main` -/

/-- How control leaves a piece of the program: it continues with the next
statement, `main` returns, or the budget of a wait loop ran out before
`done_o` was seen (the state is the one reached so far). -/
inductive Outcome (σ : Type) where
  | running (h : Harness σ)
  | returned (code : Int) (h : Harness σ)
  | diverged (h : Harness σ)

/-- The harness state carried by an outcome. -/
def Outcome.state : Outcome σ → Harness σ
  | .running h => h
  | .returned _ h => h
  | .diverged h => h

/-- The prompt printed at the top of every iteration (line 46). -/
def promptText : String :=
  "n for new, s for move down, a for move left, d for move right, x for rotate, c for commit and k for check."

/-- The statements `char c = 0; scanf("%c", &c); fflush(stdin);` (lines 45-48):
the next unread character is consumed; at end of input the conversion fails
and `c` keeps its initial value 0.  `fflush` on the input stream drops no
unread character. -/
def scanfChar (h : Harness σ) : Char × Harness σ :=
  match h.stdin with
  | [] => (Char.ofNat 0, h)
  | c :: rest => (c, { h with stdin := rest })

/-- The `switch (c)` of lines 49-84: the enumerator assigned to `opcode_i`, or
`none` for `case 'q'`, which returns from `main`. -/
def keySwitch (c : Char) : Option Opcode :=
  if c = 'n' then some Opcode.eNew
  else if c = 's' then some Opcode.eMoveDown
  else if c = 'a' then some Opcode.eMoveLeft
  else if c = 'd' then some Opcode.eMoveRight
  else if c = 'x' then some Opcode.eRotate
  else if c = 'c' then some Opcode.eCommit
  else if c = 'k' then some Opcode.eCheck
  else if c = 'q' then none
  else some Opcode.eNop

/-- The loop `while(!wrapper->done_o) wrapper.tick(false);` (lines 87-88) with
a budget of `fuel` executions of its body; every evaluation of the condition
is logged as `Ev.readDone`. -/
def waitDone (W : TestWrapper σ) : Nat → Harness σ → Outcome σ
  | 0, h =>
    if h.dut.out.done_o then
      Outcome.running { h with log := h.log ++ [Ev.readDone true] }
    else
      Outcome.diverged { h with log := h.log ++ [Ev.readDone false] }
  | fuel + 1, h =>
    if h.dut.out.done_o then
      Outcome.running { h with log := h.log ++ [Ev.readDone true] }
    else
      waitDone W fuel (tickH W (some false) { h with log := h.log ++ [Ev.readDone false] })

/-- Lines 85-92: the valid/done handshake followed by the render. -/
def commandCycle (W : TestWrapper σ) (fuel : Nat) (h : Harness σ) : Outcome σ :=
  let h1 := poke Pin.opcode_v_i 1 h
  let h2 := tickH W (some false) h1
  match waitDone W fuel h2 with
  | Outcome.running h3 =>
    let h4 := tickH W (some false) h3
    let h5 := poke Pin.opcode_v_i 0 h4
    let h6 := tickH W (some false) h5
    Outcome.running (displayCurrentInfo W h6)
  | o => o

/-- One iteration of the `while(true)` loop (lines 45-92). -/
def loopBody (W : TestWrapper σ) (fuel : Nat) (h : Harness σ) : Outcome σ :=
  let h1 := puts promptText h
  let r := scanfChar h1
  match keySwitch r.1 with
  | none => Outcome.returned 0 r.2
  | some op => commandCycle W fuel (poke Pin.opcode_i (W.enc op) r.2)

/-- The loop `while(true)` of lines 44-93 run for at most `n` iterations, each
wait loop having the budget `fuel`: the outcome is `running` when the loop is
about to start a further iteration. -/
def commandLoop (W : TestWrapper σ) (fuel : Nat) : Nat → Harness σ → Outcome σ
  | 0, h => Outcome.running h
  | n + 1, h =>
    match loopBody W fuel h with
    | Outcome.running h1 => commandLoop W fuel n h1
    | o => o

/-- Lines 26-42: pin initialisation, reset and the first tick. -/
def prologue (W : TestWrapper σ) (input : List Char) : Harness σ :=
  let h0 : Harness σ := { dut := W.fresh, stdin := input, stdout := [], log := [] }
  let h1 := poke Pin.clk_i 0 h0
  let h2 := poke Pin.reset_i 0 h1
  let h3 := poke Pin.opcode_i 0 h2
  let h4 := poke Pin.opcode_v_i 0 h3
  let h5 := poke Pin.dis_logic_x_i 0 h4
  let h6 := poke Pin.dis_logic_y_i 0 h5
  let h7 := evalH W h6
  let h8 := resetH W h7
  let h9 := puts "Reset Finished!" h8
  tickH W none h9

/-- The function `main` (lines 25-96) run on the given standard input. -/
def main (W : TestWrapper σ) (fuel n : Nat) (input : List Char) : Outcome σ :=
  commandLoop W fuel n (prologue W input)

/-! ## Observers used to state the properties -/

/-- The character the claim assigns to a cell from its two outputs. -/
def cellChar (mm cm : Bool) : Char :=
  if mm then '1' else if cm then '*' else '0'

/-- The sixteen characters of line `i` of the board for output functions
`mm`, `cm` of (column, row). -/
def boardLine (mm cm : Nat → Nat → Bool) (i : Nat) : List Char :=
  (List.range 16).map (fun j => cellChar (mm j i) (cm j i))

/-- The thirty-two lines of the board. -/
def boardLines (mm cm : Nat → Nat → Bool) : List (List Char) :=
  (List.range 32).map (boardLine mm cm)

/-- Text of a list of lines, each terminated by a newline. -/
def unlines (ls : List (List Char)) : List Char :=
  (ls.map (fun l => l ++ ['\n'])).flatten

/-- The (column, row) pairs of the `eval` calls in a log, in order. -/
def queries : List Ev → List (Nat × Nat)
  | [] => []
  | Ev.eval inp :: es => (inp.dis_logic_x_i, inp.dis_logic_y_i) :: queries es
  | _ :: es => queries es

/-- The grid positions in row-major order from the top-left. -/
def rowMajor : List (Nat × Nat) :=
  (List.range 32).flatMap (fun i => (List.range 16).map (fun j => (j, i)))

/-- Log entries of one cell query at row `i`, column `j`, the other pins
being as in `inp`. -/
def cellEvents (inp : In) (i j : Nat) : List Ev :=
  [Ev.write Pin.dis_logic_x_i j,
   Ev.eval ((inp.set Pin.dis_logic_y_i i).set Pin.dis_logic_x_i j)]

/-- Log entries of one row of the render. -/
def rowEvents (inp : In) (i : Nat) : List Ev :=
  Ev.write Pin.dis_logic_y_i i :: (List.range 16).flatMap (cellEvents inp i)

/-- Log entries of one call of the render entered with input pins `inp`. -/
def displayEvents (inp : In) : List Ev :=
  Ev.display :: (List.range 32).flatMap (rowEvents inp)

/-- The device answers every query made from a state in `R` with the values of
`mm` and `cm` at the queried position, and stays in `R`. -/
def Answers (W : TestWrapper σ) (R : σ → Prop) (mm cm : Nat → Nat → Bool) : Prop :=
  ∀ inp s, R s →
    R (W.eval inp s).1 ∧
    (W.eval inp s).2.dis_logic_mm_o = mm inp.dis_logic_x_i inp.dis_logic_y_i ∧
    (W.eval inp s).2.dis_logic_cm_o = cm inp.dis_logic_x_i inp.dis_logic_y_i

/-- The iterated clock tick `wrapper.tick(false)` on the device. -/
def ticks (W : TestWrapper σ) (k : Nat) (d : Dut σ) : Dut σ :=
  (W.tick (some false))^[k] d

/-- Log entries of `n` executions of the wait loop body, each after a failed
test of `done_o`. -/
def waitEvents : Nat → List Ev
  | 0 => []
  | n + 1 => Ev.readDone false :: Ev.tick :: waitEvents n

/-- Log entries of lines 85-91 when the wait loop body runs `n` times. -/
def handshakeEvents (n : Nat) : List Ev :=
  [Ev.write Pin.opcode_v_i 1, Ev.tick] ++ waitEvents n ++
    [Ev.readDone true, Ev.tick, Ev.write Pin.opcode_v_i 0, Ev.tick]

/-- Number of clock ticks in a log. -/
def tickCount : List Ev → Nat
  | [] => 0
  | Ev.tick :: es => tickCount es + 1
  | _ :: es => tickCount es

/-- Every entry of a log paired with the value last assigned to `opcode_v_i`
before it; `cur` is the value of the pin at the start of the log. -/
def annotate : Nat → List Ev → List (Nat × Ev)
  | _, [] => []
  | cur, Ev.write Pin.opcode_v_i w :: es => (cur, Ev.write Pin.opcode_v_i w) :: annotate w es
  | cur, e :: es => (cur, e) :: annotate cur es

/-- The value of `opcode_v_i` in force at each clock tick of a log, in order. -/
def tickValids (cur : Nat) (es : List Ev) : List Nat :=
  ((annotate cur es).filter (fun p => decide (p.2 = Ev.tick))).map Prod.fst

/-- Number of clock ticks in a log performed while `opcode_v_i` holds `v`. -/
def ticksWhile (v cur : Nat) (es : List Ev) : Nat :=
  (tickValids cur es).count v

/-- Progress of one command through the valid/done handshake, as seen in the
log: `idle armed` while valid is clear (`armed` once `opcode_i` has been
written), `waiting` from the assignment of 1 to `opcode_v_i` until `done_o` is
read asserted, `acked` from then until valid is cleared. -/
inductive Proto where
  | idle (armed : Bool)
  | waiting
  | acked
deriving DecidableEq, Repr

/-- One step of the handshake monitor; `none` is a violation: valid set
without a command written, a write to `opcode_i` or `opcode_v_i` while the
command is in progress, valid cleared before `done_o` was read asserted, or a
render or an `eval` while valid is set. -/
def Proto.next : Proto → Ev → Option Proto
  | Proto.idle _, Ev.write Pin.opcode_i _ => some (Proto.idle true)
  | Proto.idle a, Ev.write Pin.opcode_v_i 0 => some (Proto.idle a)
  | Proto.idle true, Ev.write Pin.opcode_v_i _ => some Proto.waiting
  | Proto.idle false, Ev.write Pin.opcode_v_i _ => none
  | Proto.waiting, Ev.write Pin.opcode_i _ => none
  | Proto.waiting, Ev.write Pin.opcode_v_i _ => none
  | Proto.waiting, Ev.readDone true => some Proto.acked
  | Proto.waiting, Ev.eval _ => none
  | Proto.waiting, Ev.display => none
  | Proto.acked, Ev.write Pin.opcode_i _ => none
  | Proto.acked, Ev.write Pin.opcode_v_i 0 => some (Proto.idle false)
  | Proto.acked, Ev.write Pin.opcode_v_i _ => none
  | Proto.acked, Ev.eval _ => none
  | Proto.acked, Ev.display => none
  | s, _ => some s

/-- The handshake monitor run over a log. -/
def monitor : Proto → List Ev → Option Proto
  | s, [] => some s
  | s, e :: es =>
    match Proto.next s e with
    | none => none
    | some t => monitor t es

/-- An entry that is no assignment to `opcode_v_i`. -/
def Ev.keepsValid : Ev → Bool
  | Ev.write Pin.opcode_v_i _ => false
  | _ => true

/-- An entry that is no assignment to `opcode_i` or `opcode_v_i` and no
reading of an asserted `done_o`. -/
def Ev.silent : Ev → Bool
  | Ev.write Pin.opcode_v_i _ => false
  | Ev.write Pin.opcode_i _ => false
  | Ev.readDone true => false
  | _ => true

/-- Log entries of one iteration of the command loop that issues the command
value `t.1`, whose wait loop body runs `t.2.1` times and whose render is
entered with the input pins `t.2.2`. -/
def cycleEvents (t : Nat × Nat × In) : List Ev :=
  Ev.write Pin.opcode_i t.1 :: (handshakeEvents t.2.1 ++ displayEvents t.2.2)

/-- The device after lines 85-91 when the wait loop body runs `n` times. -/
def afterHandshake (W : TestWrapper σ) (n : Nat) (d : Dut σ) : Dut σ :=
  let d3 := ticks W n (W.tick (some false) { d with inp := d.inp.set Pin.opcode_v_i 1 })
  let d4 := W.tick (some false) d3
  W.tick (some false) { d4 with inp := d4.inp.set Pin.opcode_v_i 0 }

/-- Number of calls of `displayCurrentInfo` in a log. -/
def renderCount : List Ev → Nat
  | [] => 0
  | Ev.display :: es => renderCount es + 1
  | _ :: es => renderCount es

/-- The commands issued in a log: the value on `opcode_i` each time
`opcode_v_i` is assigned 1; `cur` is the value of `opcode_i` at the start. -/
def issued : Nat → List Ev → List Nat
  | _, [] => []
  | _, Ev.write Pin.opcode_i w :: es => issued w es
  | cur, Ev.write Pin.opcode_v_i 1 :: es => cur :: issued cur es
  | cur, _ :: es => issued cur es

/-- The key bindings as the prompt of line 46 words them: "n for new, s for
move down, a for move left, d for move right, x for rotate, c for commit and
k for check"; any other key has no command. -/
def promptBinding (c : Char) : Opcode :=
  match c with
  | 'n' => Opcode.eNew
  | 's' => Opcode.eMoveDown
  | 'a' => Opcode.eMoveLeft
  | 'd' => Opcode.eMoveRight
  | 'x' => Opcode.eRotate
  | 'c' => Opcode.eCommit
  | 'k' => Opcode.eCheck
  | _ => Opcode.eNop

/-- The device after the statement `dut->eval()`. -/
def evalDut (W : TestWrapper σ) (d : Dut σ) : Dut σ :=
  { d with st := (W.eval d.inp d.st).1, out := (W.eval d.inp d.st).2 }

/-- The device always completes the commands the harness issues.  `Ready`
holds of the device states in which a command is issued (for the specified
engine: idle with reset released).  From such a state, once any opcode is
written and valid is set, the device asserts `done_o` after some number of
ticks; after the handshake that ends at the first such tick it is `Ready`
again; and the assignments and `eval` calls of the render keep it `Ready`. -/
def CompletesFrom (W : TestWrapper σ) (Ready : Dut σ → Prop) : Prop :=
  (∀ d v, Ready d →
    ∃ k, (ticks W (k + 1)
      { d with inp := (d.inp.set Pin.opcode_i v).set Pin.opcode_v_i 1 }).out.done_o = true) ∧
  (∀ d v n, Ready d →
    (ticks W (n + 1)
      { d with inp := (d.inp.set Pin.opcode_i v).set Pin.opcode_v_i 1 }).out.done_o = true →
    (∀ j, j < n → (ticks W (j + 1)
      { d with inp := (d.inp.set Pin.opcode_i v).set Pin.opcode_v_i 1 }).out.done_o = false) →
    Ready (afterHandshake W n { d with inp := d.inp.set Pin.opcode_i v })) ∧
  (∀ d v, Ready d →
    Ready { d with inp := d.inp.set Pin.dis_logic_y_i v } ∧
    Ready (evalDut W { d with inp := d.inp.set Pin.dis_logic_x_i v }))

/-- Neither `tick` assigns the pins `opcode_i` and `opcode_v_i`. -/
def TickKeepsCommand (W : TestWrapper σ) : Prop :=
  ∀ b d, (W.tick b d).inp.opcode_i = d.inp.opcode_i ∧
    (W.tick b d).inp.opcode_v_i = d.inp.opcode_v_i

/-- Neither `tick` assigns the pin `opcode_v_i`. -/
def TickKeepsValid (W : TestWrapper σ) : Prop :=
  ∀ b d, (W.tick b d).inp.opcode_v_i = d.inp.opcode_v_i

/-! ## The device as the specification describes it -/

/-- Modelled from the spec: the classification of a grid position (§3, "Cell
state"); the hardware module that computes it is not in the sources. -/
inductive Cell where
  | Empty
  | ActivePiece
  | Committed
deriving DecidableEq, Repr

/-- Modelled from the spec: the states of the command/completion state machine
of §4.4, which the missing hardware module implements: `Idle`, `Executing`
(with the number of internal steps still to run) and `Idle` with the
completion signal asserted, which lasts until the caller has acknowledged it
by clearing valid (§6, "Completion"). -/
inductive Phase where
  | Idle
  | Executing (remaining : Nat)
  | Completed
deriving DecidableEq, Repr

/-- Modelled from the spec: the gameplay logic of the missing hardware module
(§4.1-§4.3) as far as the protocol of §6 exposes it: the engine state `β`, its
value after reset, the effect of a command value on it, the number of internal
steps the command takes, which §5 bounds, and the renderer of §4.5. -/
structure EngineSpec (β : Type) where
  empty : β
  exec : β → Nat → β
  steps : β → Nat → Nat
  bound : Nat
  steps_le : ∀ b op, steps b op ≤ bound
  render : β → Nat → Nat → Cell
  enc : Opcode → Nat

/-- Modelled from the spec: the engine state of §3 for the missing hardware
module: the gameplay state, the phase of the state machine and the command
being executed. -/
structure Engine (β : Type) where
  board : β
  phase : Phase
  op : Nat

variable {β : Type}

/-- Modelled from the spec: one internal step of a command of the missing
hardware module: the last step applies the command and asserts completion
(§4.4). -/
def Engine.advance (E : EngineSpec β) (s : Engine β) (op n : Nat) : Engine β :=
  match n with
  | 0 => { board := E.exec s.board op, phase := Phase.Completed, op := op }
  | m + 1 => { board := s.board, phase := Phase.Executing m, op := op }

/-- Modelled from the spec: one clock cycle of the missing hardware module
(§4.4, §6): reset re-initialises the engine; an idle engine begins executing
when valid is set; an executing engine takes its next step; a completed engine
keeps completion asserted until valid is cleared and then is idle again. -/
def Engine.step (E : EngineSpec β) (inp : In) (s : Engine β) : Engine β :=
  if inp.reset_i ≠ 0 then { board := E.empty, phase := Phase.Idle, op := 0 }
  else
    match s.phase with
    | Phase.Idle =>
      if inp.opcode_v_i ≠ 0 then Engine.advance E s inp.opcode_i (E.steps s.board inp.opcode_i)
      else s
    | Phase.Executing n => Engine.advance E s s.op n
    | Phase.Completed =>
      if inp.opcode_v_i ≠ 0 then s else { s with phase := Phase.Idle }

/-- Modelled from the spec: the output signals of the missing hardware module
(§6): one output for `ActivePiece`, a different one for `Committed`, neither
for `Empty`, and the completion flag. -/
def Engine.outputs (E : EngineSpec β) (inp : In) (s : Engine β) : Out :=
  { dis_logic_mm_o := decide (E.render s.board inp.dis_logic_x_i inp.dis_logic_y_i = Cell.ActivePiece),
    dis_logic_cm_o := decide (E.render s.board inp.dis_logic_x_i inp.dis_logic_y_i = Cell.Committed),
    done_o := decide (s.phase = Phase.Completed) }

/-- Modelled from the spec: the missing hardware module behind the wrapper:
`eval` settles the outputs without a clock edge, `tick` is one clock cycle,
`reset` is one clock cycle with the reset signal asserted (§6, "Reset"). -/
def specWrapper (E : EngineSpec β) : TestWrapper (Engine β) :=
  { eval := fun inp s => (s, Engine.outputs E inp s)
    tick := fun _ d =>
      { inp := d.inp, st := Engine.step E d.inp d.st,
        out := Engine.outputs E d.inp (Engine.step E d.inp d.st) }
    reset := fun d =>
      { inp := d.inp, st := Engine.step E { d.inp with reset_i := 1 } d.st,
        out := Engine.outputs E d.inp (Engine.step E { d.inp with reset_i := 1 } d.st) }
    fresh :=
      { inp := { clk_i := 0, reset_i := 0, opcode_i := 0, opcode_v_i := 0,
                 dis_logic_x_i := 0, dis_logic_y_i := 0 },
        out := { dis_logic_mm_o := false, dis_logic_cm_o := false, done_o := false },
        st := { board := E.empty, phase := Phase.Idle, op := 0 } }
    enc := E.enc }

/-! ## Sample devices -/

/-- A device without internal state: the moving-piece output is asserted on
even columns, the committed output on even rows (both on cells where column
and row are even), and every tick asserts `done_o`. -/
def patternWrapper : TestWrapper Unit :=
  { eval := fun inp _ =>
      ((), { dis_logic_mm_o := decide (inp.dis_logic_x_i % 2 = 0),
             dis_logic_cm_o := decide (inp.dis_logic_y_i % 2 = 0),
             done_o := true })
    tick := fun _ d => { d with out := { d.out with done_o := true } }
    reset := fun d => d
    fresh :=
      { inp := { clk_i := 0, reset_i := 0, opcode_i := 0, opcode_v_i := 0,
                 dis_logic_x_i := 0, dis_logic_y_i := 0 },
        out := { dis_logic_mm_o := false, dis_logic_cm_o := false, done_o := false },
        st := () }
    enc := fun op =>
      match op with
      | Opcode.eNop => 0
      | Opcode.eNew => 1
      | Opcode.eMoveDown => 2
      | Opcode.eMoveLeft => 3
      | Opcode.eMoveRight => 4
      | Opcode.eRotate => 5
      | Opcode.eCommit => 6
      | Opcode.eCheck => 7 }

/-- An instance of the specified engine: the engine state counts the commands
executed, every command takes two internal steps, the cell in column `c` of
row `r` holds the active piece when `c = r` and is committed when
`c + 1 = r`. -/
def sampleSpec : EngineSpec Nat :=
  { empty := 0
    exec := fun b _ => b + 1
    steps := fun _ _ => 2
    bound := 2
    steps_le := fun _ _ => Nat.le_refl 2
    render := fun _ c r =>
      if c = r then Cell.ActivePiece else if c + 1 = r then Cell.Committed else Cell.Empty
    enc := patternWrapper.enc }

/-- The harness holding a freshly constructed device, with the given unread
input and nothing printed or logged yet. -/
def startOf (W : TestWrapper σ) (input : List Char) : Harness σ :=
  { dut := W.fresh, stdin := input, stdout := [], log := [] }

/-! ## Lemmas on the render -/

@[simp] theorem set_x_x (a b : Nat) (i : In) :
    (i.set Pin.dis_logic_x_i a).set Pin.dis_logic_x_i b = i.set Pin.dis_logic_x_i b := rfl

@[simp] theorem set_y_y (a b : Nat) (i : In) :
    (i.set Pin.dis_logic_y_i a).set Pin.dis_logic_y_i b = i.set Pin.dis_logic_y_i b := rfl

@[simp] theorem set_x_y_y (a b c : Nat) (i : In) :
    ((i.set Pin.dis_logic_y_i a).set Pin.dis_logic_x_i b).set Pin.dis_logic_y_i c
      = (i.set Pin.dis_logic_y_i c).set Pin.dis_logic_x_i b := rfl

theorem displayCell_log (W : TestWrapper σ) (j : Nat) (h : Harness σ) :
    (displayCell W j h).log
      = h.log ++ [Ev.write Pin.dis_logic_x_i j, Ev.eval (h.dut.inp.set Pin.dis_logic_x_i j)] := by
  unfold displayCell
  simp only [poke, evalH, printf]
  split_ifs <;> simp

theorem displayCell_inp (W : TestWrapper σ) (j : Nat) (h : Harness σ) :
    (displayCell W j h).dut.inp = h.dut.inp.set Pin.dis_logic_x_i j := by
  unfold displayCell
  simp only [poke, evalH, printf]
  split_ifs <;> rfl

theorem displayCell_stdin (W : TestWrapper σ) (j : Nat) (h : Harness σ) :
    (displayCell W j h).stdin = h.stdin := by
  unfold displayCell
  simp only [poke, evalH, printf]
  split_ifs <;> rfl

theorem displayCell_st (W : TestWrapper σ) (j : Nat) (h : Harness σ) :
    (displayCell W j h).dut.st = (W.eval (h.dut.inp.set Pin.dis_logic_x_i j) h.dut.st).1 := by
  unfold displayCell
  simp only [poke, evalH, printf]
  split_ifs <;> rfl

theorem displayCell_stdout (W : TestWrapper σ) (j : Nat) (h : Harness σ) :
    (displayCell W j h).stdout
      = h.stdout ++ [cellChar (W.eval (h.dut.inp.set Pin.dis_logic_x_i j) h.dut.st).2.dis_logic_mm_o
          (W.eval (h.dut.inp.set Pin.dis_logic_x_i j) h.dut.st).2.dis_logic_cm_o] := by
  unfold displayCell cellChar
  simp only [poke, evalH, printf]
  split_ifs <;> simp_all

theorem cells_fold (W : TestWrapper σ) (js : List Nat) (h : Harness σ) :
    (js.foldl (fun acc j => displayCell W j acc) h).log
        = h.log ++ js.flatMap (fun j =>
            [Ev.write Pin.dis_logic_x_i j, Ev.eval (h.dut.inp.set Pin.dis_logic_x_i j)]) ∧
    (js.foldl (fun acc j => displayCell W j acc) h).stdin = h.stdin ∧
    (js.foldl (fun acc j => displayCell W j acc) h).dut.inp
        = js.foldl (fun i j => i.set Pin.dis_logic_x_i j) h.dut.inp := by
  induction js generalizing h with
  | nil => simp
  | cons j js ih =>
    obtain ⟨h1, h2, h3⟩ := ih (displayCell W j h)
    simp only [List.foldl_cons]
    refine ⟨?_, ?_, ?_⟩
    · rw [h1, displayCell_log, displayCell_inp]
      simp
    · rw [h2, displayCell_stdin]
    · rw [h3, displayCell_inp]

theorem cells_fold_stdout (W : TestWrapper σ) (R : σ → Prop) (mm cm : Nat → Nat → Bool)
    (hA : Answers W R mm cm) (js : List Nat) (h : Harness σ) (hR : R h.dut.st) :
    (js.foldl (fun acc j => displayCell W j acc) h).stdout
        = h.stdout ++ js.map (fun j =>
            cellChar (mm j h.dut.inp.dis_logic_y_i) (cm j h.dut.inp.dis_logic_y_i)) ∧
    R (js.foldl (fun acc j => displayCell W j acc) h).dut.st := by
  induction js generalizing h with
  | nil => simpa using hR
  | cons j js ih =>
    obtain ⟨a1, a2, a3⟩ := hA (h.dut.inp.set Pin.dis_logic_x_i j) h.dut.st hR
    have hR1 : R (displayCell W j h).dut.st := by rw [displayCell_st]; exact a1
    obtain ⟨h1, h2⟩ := ih (displayCell W j h) hR1
    simp only [List.foldl_cons]
    refine ⟨?_, h2⟩
    rw [h1, displayCell_stdout, displayCell_inp, a2, a3]
    simp [In.set]

theorem range16_foldl_set (i : In) :
    (List.range 16).foldl (fun a j => a.set Pin.dis_logic_x_i j) i = i.set Pin.dis_logic_x_i 15 := by
  simp [List.range_succ]

theorem displayRow_log (W : TestWrapper σ) (i : Nat) (h : Harness σ) :
    (displayRow W i h).log = h.log ++ rowEvents h.dut.inp i := by
  unfold displayRow forLoop
  simp only [puts]
  rw [(cells_fold W (List.range 16) (poke Pin.dis_logic_y_i i h)).1]
  simp only [poke, rowEvents, List.append_assoc, List.singleton_append, List.append_nil]
  rfl

theorem displayRow_inp (W : TestWrapper σ) (i : Nat) (h : Harness σ) :
    (displayRow W i h).dut.inp
      = (h.dut.inp.set Pin.dis_logic_y_i i).set Pin.dis_logic_x_i 15 := by
  unfold displayRow forLoop
  simp only [puts]
  rw [(cells_fold W (List.range 16) (poke Pin.dis_logic_y_i i h)).2.2, range16_foldl_set]
  rfl

theorem displayRow_stdin (W : TestWrapper σ) (i : Nat) (h : Harness σ) :
    (displayRow W i h).stdin = h.stdin := by
  unfold displayRow forLoop
  simp only [puts]
  rw [(cells_fold W (List.range 16) (poke Pin.dis_logic_y_i i h)).2.1]
  rfl

theorem displayRow_stdout (W : TestWrapper σ) (R : σ → Prop) (mm cm : Nat → Nat → Bool)
    (hA : Answers W R mm cm) (i : Nat) (h : Harness σ) (hR : R h.dut.st) :
    (displayRow W i h).stdout = h.stdout ++ (boardLine mm cm i ++ ['\n']) ∧
    R (displayRow W i h).dut.st := by
  have key := cells_fold_stdout W R mm cm hA (List.range 16) (poke Pin.dis_logic_y_i i h) hR
  unfold displayRow forLoop
  simp only [puts]
  refine ⟨?_, key.2⟩
  rw [key.1]
  simp [poke, boardLine, In.set]

theorem rowEvents_congr (inp : In) (a b : Nat) :
    rowEvents ((inp.set Pin.dis_logic_y_i a).set Pin.dis_logic_x_i b) = rowEvents inp := by
  funext i
  rfl

theorem rows_fold (W : TestWrapper σ) (is : List Nat) (h : Harness σ) :
    (is.foldl (fun acc i => displayRow W i acc) h).log
        = h.log ++ is.flatMap (rowEvents h.dut.inp) ∧
    (is.foldl (fun acc i => displayRow W i acc) h).stdin = h.stdin ∧
    (is.foldl (fun acc i => displayRow W i acc) h).dut.inp
        = is.foldl (fun a i => (a.set Pin.dis_logic_y_i i).set Pin.dis_logic_x_i 15) h.dut.inp := by
  induction is generalizing h with
  | nil => simp
  | cons i is ih =>
    obtain ⟨h1, h2, h3⟩ := ih (displayRow W i h)
    simp only [List.foldl_cons]
    refine ⟨?_, ?_, ?_⟩
    · rw [h1, displayRow_log, displayRow_inp]
      simp [rowEvents_congr]
    · rw [h2, displayRow_stdin]
    · rw [h3, displayRow_inp]

theorem rows_fold_stdout (W : TestWrapper σ) (R : σ → Prop) (mm cm : Nat → Nat → Bool)
    (hA : Answers W R mm cm) (is : List Nat) (h : Harness σ) (hR : R h.dut.st) :
    (is.foldl (fun acc i => displayRow W i acc) h).stdout
        = h.stdout ++ unlines (is.map (boardLine mm cm)) ∧
    R (is.foldl (fun acc i => displayRow W i acc) h).dut.st := by
  induction is generalizing h with
  | nil => simpa [unlines] using hR
  | cons i is ih =>
    obtain ⟨a1, a2⟩ := displayRow_stdout W R mm cm hA i h hR
    obtain ⟨h1, h2⟩ := ih (displayRow W i h) a2
    simp only [List.foldl_cons]
    refine ⟨?_, h2⟩
    rw [h1, a1]
    simp [unlines]

theorem range32_foldl_set (i : In) :
    (List.range 32).foldl (fun a r => (a.set Pin.dis_logic_y_i r).set Pin.dis_logic_x_i 15) i
      = (i.set Pin.dis_logic_y_i 31).set Pin.dis_logic_x_i 15 := by
  simp [List.range_succ]

theorem display_log (W : TestWrapper σ) (h : Harness σ) :
    (displayCurrentInfo W h).log = h.log ++ displayEvents h.dut.inp := by
  unfold displayCurrentInfo forLoop
  simp only [puts]
  rw [(rows_fold W (List.range 32) _).1]
  simp [displayEvents]

theorem display_inp (W : TestWrapper σ) (h : Harness σ) :
    (displayCurrentInfo W h).dut.inp
      = (h.dut.inp.set Pin.dis_logic_y_i 31).set Pin.dis_logic_x_i 15 := by
  unfold displayCurrentInfo forLoop
  simp only [puts]
  rw [(rows_fold W (List.range 32) _).2.2, range32_foldl_set]

theorem display_stdin (W : TestWrapper σ) (h : Harness σ) :
    (displayCurrentInfo W h).stdin = h.stdin := by
  unfold displayCurrentInfo forLoop
  simp only [puts]
  rw [(rows_fold W (List.range 32) _).2.1]

theorem display_stdout (W : TestWrapper σ) (R : σ → Prop) (mm cm : Nat → Nat → Bool)
    (hA : Answers W R mm cm) (h : Harness σ) (hR : R h.dut.st) :
    (displayCurrentInfo W h).stdout
        = h.stdout ++ ("Board Info:".toList ++ ['\n'] ++ unlines (boardLines mm cm)) ∧
    R (displayCurrentInfo W h).dut.st := by
  have key := rows_fold_stdout W R mm cm hA (List.range 32)
    (puts "Board Info:" { h with log := h.log ++ [Ev.display] }) hR
  unfold displayCurrentInfo forLoop
  refine ⟨?_, key.2⟩
  rw [key.1]
  simp [puts, boardLines]

theorem queries_append (a b : List Ev) : queries (a ++ b) = queries a ++ queries b := by
  induction a with
  | nil => rfl
  | cons e a ih => cases e <;> simp [queries, ih]

theorem queries_flatMap {α : Type} (l : List α) (f : α → List Ev) :
    queries (l.flatMap f) = l.flatMap (fun a => queries (f a)) := by
  induction l with
  | nil => rfl
  | cons a l ih => simp [List.flatMap_cons, queries_append, ih]

theorem queries_cells (inp : In) (i : Nat) (js : List Nat) :
    queries (js.flatMap (cellEvents inp i)) = js.map (fun j => (j, i)) := by
  induction js with
  | nil => rfl
  | cons j l ih =>
    rw [List.flatMap_cons, queries_append, ih]
    rfl

theorem queries_rowEvents (inp : In) (i : Nat) :
    queries (rowEvents inp i) = (List.range 16).map (fun j => (j, i)) :=
  queries_cells inp i (List.range 16)

theorem queries_displayEvents (inp : In) : queries (displayEvents inp) = rowMajor := by
  have e : queries (displayEvents inp) = queries ((List.range 32).flatMap (rowEvents inp)) := rfl
  rw [e, queries_flatMap]
  have f : (fun a => queries (rowEvents inp a)) = fun i => (List.range 16).map (fun j => (j, i)) := by
    funext a
    exact queries_rowEvents inp a
  rw [f]
  rfl

set_option maxRecDepth 100000 in
theorem rowMajor_eq : rowMajor = (List.range 512).map (fun n => (n % 16, n / 16)) := by
  decide

theorem rowMajor_mem (c r : Nat) : (c, r) ∈ rowMajor ↔ c < 16 ∧ r < 32 := by
  unfold rowMajor
  simp only [List.mem_flatMap, List.mem_map, List.mem_range, Prod.mk.injEq]
  constructor
  · rintro ⟨i, hi, j, hj, rfl, rfl⟩
    exact ⟨hj, hi⟩
  · rintro ⟨hc, hr⟩
    exact ⟨r, hr, c, hc, rfl, rfl⟩

/-- The kinds of log entry a render produces. -/
theorem displayEvents_kind (inp : In) (e : Ev) (he : e ∈ displayEvents inp) :
    e = Ev.display ∨ (∃ v, e = Ev.write Pin.dis_logic_x_i v) ∨
      (∃ v, e = Ev.write Pin.dis_logic_y_i v) ∨ ∃ q, e = Ev.eval q := by
  unfold displayEvents at he
  rcases List.mem_cons.1 he with h0 | h0
  · exact Or.inl h0
  · obtain ⟨i, _, hi⟩ := List.mem_flatMap.1 h0
    unfold rowEvents at hi
    rcases List.mem_cons.1 hi with h1 | h1
    · exact Or.inr (Or.inr (Or.inl ⟨i, h1⟩))
    · obtain ⟨j, _, hj⟩ := List.mem_flatMap.1 h1
      unfold cellEvents at hj
      rcases List.mem_cons.1 hj with h2 | h2
      · exact Or.inr (Or.inl ⟨j, h2⟩)
      · rcases List.mem_cons.1 h2 with h3 | h3
        · exact Or.inr (Or.inr (Or.inr ⟨_, h3⟩))
        · cases h3

theorem tickCount_eq_zero (es : List Ev) (hes : ∀ e ∈ es, e ≠ Ev.tick) : tickCount es = 0 := by
  induction es with
  | nil => rfl
  | cons e es ih =>
    have h1 : e ≠ Ev.tick := hes e (List.mem_cons_self _ _)
    have h2 : tickCount es = 0 := ih (fun x hx => hes x (List.mem_cons_of_mem _ hx))
    cases e <;> simp_all [tickCount]

theorem displayEvents_no_tick (inp : In) : tickCount (displayEvents inp) = 0 := by
  apply tickCount_eq_zero
  intro e he
  rcases displayEvents_kind inp e he with h | ⟨v, h⟩ | ⟨v, h⟩ | ⟨q, h⟩ <;> simp [h]

theorem patternWrapper_answers :
    Answers patternWrapper (fun _ => True)
      (fun c _ => decide (c % 2 = 0)) (fun _ r => decide (r % 2 = 0)) := by
  intro inp s _
  exact ⟨trivial, rfl, rfl⟩

/-! ## The render -/

/-- C1: for output functions `mm`, `cm` of (column, row) with which the device
answers every query, `displayCurrentInfo` appends to the output the line
"Board Info:" and then 32 lines of 16 characters, the character of line `i`,
position `j` being '1' if `mm j i`, else '*' if `cm j i`, else '0'; a cell
with both outputs asserted is printed as '1'. -/
theorem displayCurrentInfo_prints_board (W : TestWrapper σ) (R : σ → Prop)
    (mm cm : Nat → Nat → Bool) (hA : Answers W R mm cm) (h : Harness σ) (hR : R h.dut.st) :
    (displayCurrentInfo W h).stdout
        = h.stdout ++ ("Board Info:".toList ++ ['\n'] ++ unlines (boardLines mm cm)) ∧
    (boardLines mm cm).length = 32 ∧
    (∀ l ∈ boardLines mm cm, l.length = 16 ∧ '\n' ∉ l) ∧
    (∀ i j, i < 32 → j < 16 →
      ∃ l, (boardLines mm cm)[i]? = some l ∧
        l[j]? = some (if mm j i = true then '1' else if cm j i = true then '*' else '0')) ∧
    (∀ i j, i < 32 → j < 16 → mm j i = true → cm j i = true →
      ∃ l, (boardLines mm cm)[i]? = some l ∧ l[j]? = some '1') := by
  have cell : ∀ i j, i < 32 → j < 16 →
      ∃ l, (boardLines mm cm)[i]? = some l ∧
        l[j]? = some (if mm j i = true then '1' else if cm j i = true then '*' else '0') := by
    intro i j hi hj
    refine ⟨boardLine mm cm i, ?_, ?_⟩
    · unfold boardLines
      rw [List.getElem?_map, List.getElem?_range hi]
      rfl
    · unfold boardLine
      rw [List.getElem?_map, List.getElem?_range hj]
      rfl
  refine ⟨(display_stdout W R mm cm hA h hR).1, ?_, ?_, cell, ?_⟩
  · unfold boardLines
    rw [List.length_map, List.length_range]
  · intro l hl
    unfold boardLines at hl
    obtain ⟨i, _, rfl⟩ := List.mem_map.1 hl
    unfold boardLine
    refine ⟨by rw [List.length_map, List.length_range], ?_⟩
    intro hmem
    obtain ⟨j, _, hj⟩ := List.mem_map.1 hmem
    unfold cellChar at hj
    split_ifs at hj <;> exact absurd hj (by decide)
  · intro i j hi hj h1 h2
    obtain ⟨l, hl, hc⟩ := cell i j hi hj
    exact ⟨l, hl, by simpa [h1] using hc⟩

/-- Witness of C1 on the pattern device, where the cell in column 0 of row 0
has both outputs asserted. -/
theorem displayCurrentInfo_prints_board_witness :
    (displayCurrentInfo patternWrapper (startOf patternWrapper [])).stdout
        = (startOf patternWrapper []).stdout ++ ("Board Info:".toList ++ ['\n'] ++
            unlines (boardLines (fun c _ => decide (c % 2 = 0)) (fun _ r => decide (r % 2 = 0)))) ∧
    (boardLines (fun c _ => decide (c % 2 = 0)) (fun _ r => decide (r % 2 = 0))).length = 32 ∧
    (∃ l, (boardLines (fun c _ => decide (c % 2 = 0)) (fun _ r => decide (r % 2 = 0)))[0]? = some l ∧
      l[0]? = some '1') :=
  have key := displayCurrentInfo_prints_board patternWrapper (fun _ => True)
    (fun c _ => decide (c % 2 = 0)) (fun _ r => decide (r % 2 = 0)) patternWrapper_answers
    (startOf patternWrapper []) trivial
  ⟨key.1, key.2.1, key.2.2.2.2 0 0 (by decide) (by decide) (by decide) (by decide)⟩

/-- C5: one call of `displayCurrentInfo` evaluates exactly the 512 queries
(column, row) with column in 0..15 and row in 0..31, each once, in row-major
order from the top-left, and none outside the grid. -/
theorem displayCurrentInfo_queries (W : TestWrapper σ) (h : Harness σ) :
    (displayCurrentInfo W h).log = h.log ++ displayEvents h.dut.inp ∧
    queries (displayEvents h.dut.inp) = rowMajor ∧
    (queries (displayEvents h.dut.inp)).length = 512 ∧
    (queries (displayEvents h.dut.inp)).Nodup ∧
    (∀ c r, (c, r) ∈ queries (displayEvents h.dut.inp) ↔ c < 16 ∧ r < 32) ∧
    (∀ n, n < 512 → (queries (displayEvents h.dut.inp))[n]? = some (n % 16, n / 16)) := by
  rw [queries_displayEvents]
  refine ⟨display_log W h, rfl, ?_, ?_, rowMajor_mem, ?_⟩
  · rw [rowMajor_eq, List.length_map, List.length_range]
  · rw [rowMajor_eq]
    refine (List.nodup_range 512).map_on ?_
    intro a ha b hb hab
    rw [List.mem_range] at ha hb
    simp only [Prod.mk.injEq] at hab
    omega
  · intro n hn
    rw [rowMajor_eq, List.getElem?_map, List.getElem?_range hn]
    rfl

/-- Witness of C5: the query with index 17 of a render is column 1 of row 1. -/
theorem displayCurrentInfo_queries_witness :
    17 < 512 ∧
    (queries (displayEvents (startOf patternWrapper []).dut.inp))[17]? = some (17 % 16, 17 / 16) :=
  ⟨by decide,
    (displayCurrentInfo_queries patternWrapper (startOf patternWrapper [])).2.2.2.2.2 17
      (by decide)⟩

/-- C7: a call of `displayCurrentInfo` only assigns `dis_logic_x_i` and
`dis_logic_y_i` and calls `eval`, without any tick: `clk_i`, `reset_i`,
`opcode_i` and `opcode_v_i` keep their values, and on return
`dis_logic_x_i = 15` and `dis_logic_y_i = 31`; when the device answers the
queries with a function of the position (on a set `R` of states closed under
`eval`, such as the states sharing one clocked state), a second call made
right after the first prints the same text. -/
theorem displayCurrentInfo_frame (W : TestWrapper σ) (h : Harness σ) :
    (displayCurrentInfo W h).log = h.log ++ displayEvents h.dut.inp ∧
    (∀ e ∈ displayEvents h.dut.inp,
      e = Ev.display ∨ (∃ v, e = Ev.write Pin.dis_logic_x_i v) ∨
        (∃ v, e = Ev.write Pin.dis_logic_y_i v) ∨ ∃ q, e = Ev.eval q) ∧
    tickCount (displayEvents h.dut.inp) = 0 ∧
    (displayCurrentInfo W h).dut.inp.clk_i = h.dut.inp.clk_i ∧
    (displayCurrentInfo W h).dut.inp.reset_i = h.dut.inp.reset_i ∧
    (displayCurrentInfo W h).dut.inp.opcode_i = h.dut.inp.opcode_i ∧
    (displayCurrentInfo W h).dut.inp.opcode_v_i = h.dut.inp.opcode_v_i ∧
    (displayCurrentInfo W h).dut.inp.dis_logic_x_i = 15 ∧
    (displayCurrentInfo W h).dut.inp.dis_logic_y_i = 31 ∧
    (∀ (R : σ → Prop) (mm cm : Nat → Nat → Bool), Answers W R mm cm → R h.dut.st →
      ∃ text, (displayCurrentInfo W h).stdout = h.stdout ++ text ∧
        (displayCurrentInfo W (displayCurrentInfo W h)).stdout
          = (displayCurrentInfo W h).stdout ++ text) := by
  refine ⟨display_log W h, displayEvents_kind h.dut.inp, displayEvents_no_tick h.dut.inp,
    ?_, ?_, ?_, ?_, ?_, ?_, ?_⟩
  · rw [display_inp]; rfl
  · rw [display_inp]; rfl
  · rw [display_inp]; rfl
  · rw [display_inp]; rfl
  · rw [display_inp]; rfl
  · rw [display_inp]; rfl
  · intro R mm cm hA hR
    obtain ⟨a1, a2⟩ := display_stdout W R mm cm hA h hR
    exact ⟨_, a1, (display_stdout W R mm cm hA (displayCurrentInfo W h) a2).1⟩

/-- Witness of C7 on the pattern device: two renders in a row print the same
text. -/
theorem displayCurrentInfo_frame_witness :
    Answers patternWrapper (fun _ => True)
      (fun c _ => decide (c % 2 = 0)) (fun _ r => decide (r % 2 = 0)) ∧
    ∃ text,
      (displayCurrentInfo patternWrapper (startOf patternWrapper [])).stdout
        = (startOf patternWrapper []).stdout ++ text ∧
      (displayCurrentInfo patternWrapper
          (displayCurrentInfo patternWrapper (startOf patternWrapper []))).stdout
        = (displayCurrentInfo patternWrapper (startOf patternWrapper [])).stdout ++ text :=
  ⟨patternWrapper_answers,
    (displayCurrentInfo_frame patternWrapper (startOf patternWrapper [])).2.2.2.2.2.2.2.2.2
      (fun _ => True) (fun c _ => decide (c % 2 = 0)) (fun _ r => decide (r % 2 = 0))
      patternWrapper_answers trivial⟩

/-! ## Lemmas on the handshake -/

theorem ticks_succ (W : TestWrapper σ) (k : Nat) (d : Dut σ) :
    ticks W (k + 1) d = ticks W k (W.tick (some false) d) := by
  unfold ticks
  rw [Function.iterate_succ_apply]

/-- What the wait loop does: it leaves after `n ≤ fuel` executions of its body,
`n` being the first number of ticks after which `done_o` is asserted, or runs
out of budget with `done_o` still clear. -/
theorem waitDone_spec (W : TestWrapper σ) (fuel : Nat) (h : Harness σ) :
    (∃ n, n ≤ fuel ∧
      waitDone W fuel h = Outcome.running
        { dut := ticks W n h.dut, stdin := h.stdin, stdout := h.stdout,
          log := h.log ++ waitEvents n ++ [Ev.readDone true] } ∧
      (ticks W n h.dut).out.done_o = true ∧
      ∀ j, j < n → (ticks W j h.dut).out.done_o = false) ∨
    (waitDone W fuel h = Outcome.diverged
        { dut := ticks W fuel h.dut, stdin := h.stdin, stdout := h.stdout,
          log := h.log ++ waitEvents fuel ++ [Ev.readDone false] } ∧
      ∀ j, j ≤ fuel → (ticks W j h.dut).out.done_o = false) := by
  induction fuel generalizing h with
  | zero =>
    by_cases hd : h.dut.out.done_o = true
    · left
      refine ⟨0, le_refl 0, ?_, hd, ?_⟩
      · simp [waitDone, hd, waitEvents, ticks]
      · intro j hj; omega
    · right
      refine ⟨?_, ?_⟩
      · simp [waitDone, hd, waitEvents, ticks]
      · intro j hj
        have : j = 0 := by omega
        subst this
        simpa [ticks] using hd
  | succ f ih =>
    by_cases hd : h.dut.out.done_o = true
    · left
      refine ⟨0, Nat.zero_le _, ?_, hd, ?_⟩
      · simp [waitDone, hd, waitEvents, ticks]
      · intro j hj; omega
    · have hstep : waitDone W (f + 1) h
          = waitDone W f (tickH W (some false) { h with log := h.log ++ [Ev.readDone false] }) := by
        simp [waitDone, hd]
      have hd0 : (ticks W 0 h.dut).out.done_o = false := by simpa [ticks] using hd
      rcases ih (tickH W (some false) { h with log := h.log ++ [Ev.readDone false] }) with
        ⟨n, hn, hrun, hdone, hbefore⟩ | ⟨hdiv, hnone⟩
      · left
        refine ⟨n + 1, by omega, ?_, ?_, ?_⟩
        · rw [hstep, hrun]
          simp [tickH, waitEvents, ticks_succ]
        · rw [ticks_succ]; exact hdone
        · intro j hj
          cases j with
          | zero => exact hd0
          | succ j => rw [ticks_succ]; exact hbefore j (by omega)
      · right
        refine ⟨?_, ?_⟩
        · rw [hstep, hdiv]
          simp [tickH, waitEvents, ticks_succ]
        · intro j hj
          cases j with
          | zero => exact hd0
          | succ j => rw [ticks_succ]; exact hnone j (by omega)

/-- What lines 85-92 do: either the wait loop body runs some `n ≤ fuel` times,
`done_o` being asserted for the first time after these ticks, and the cycle
ends with the render; or the budget runs out during the wait. -/
theorem commandCycle_spec (W : TestWrapper σ) (fuel : Nat) (h : Harness σ) :
    (∃ n, n ≤ fuel ∧
      commandCycle W fuel h = Outcome.running
        (displayCurrentInfo W
          { dut := afterHandshake W n h.dut, stdin := h.stdin, stdout := h.stdout,
            log := h.log ++ handshakeEvents n }) ∧
      (ticks W (n + 1) { h.dut with inp := h.dut.inp.set Pin.opcode_v_i 1 }).out.done_o = true ∧
      ∀ j, j < n →
        (ticks W (j + 1) { h.dut with inp := h.dut.inp.set Pin.opcode_v_i 1 }).out.done_o = false) ∨
    (commandCycle W fuel h = Outcome.diverged
        { dut := ticks W (fuel + 1) { h.dut with inp := h.dut.inp.set Pin.opcode_v_i 1 },
          stdin := h.stdin, stdout := h.stdout,
          log := h.log ++ ([Ev.write Pin.opcode_v_i 1, Ev.tick] ++ waitEvents fuel ++
            [Ev.readDone false]) } ∧
      ∀ j, j ≤ fuel →
        (ticks W (j + 1) { h.dut with inp := h.dut.inp.set Pin.opcode_v_i 1 }).out.done_o = false) := by
  rcases waitDone_spec W fuel (tickH W (some false) (poke Pin.opcode_v_i 1 h)) with
    ⟨n, hn, hrun, hdone, hbefore⟩ | ⟨hdiv, hnone⟩
  · left
    refine ⟨n, hn, ?_, ?_, ?_⟩
    · unfold commandCycle
      simp only [hrun]
      simp [tickH, poke, afterHandshake, handshakeEvents]
    · rw [ticks_succ]; exact hdone
    · intro j hj
      rw [ticks_succ]; exact hbefore j hj
  · right
    refine ⟨?_, ?_⟩
    · unfold commandCycle
      simp only [hdiv]
      simp [tickH, poke, ticks_succ]
    · intro j hj
      rw [ticks_succ]; exact hnone j hj

/-! ## Lemmas on the observers -/

theorem tickCount_append (a b : List Ev) : tickCount (a ++ b) = tickCount a + tickCount b := by
  induction a with
  | nil => simp [tickCount]
  | cons e a ih =>
    cases e <;> simp [tickCount, ih]
    omega

theorem renderCount_append (a b : List Ev) :
    renderCount (a ++ b) = renderCount a + renderCount b := by
  induction a with
  | nil => simp [renderCount]
  | cons e a ih =>
    cases e <;> simp [renderCount, ih]
    omega

theorem tickCount_waitEvents (n : Nat) : tickCount (waitEvents n) = n := by
  induction n with
  | zero => rfl
  | succ n ih => simp [waitEvents, tickCount, ih]

theorem renderCount_waitEvents (n : Nat) : renderCount (waitEvents n) = 0 := by
  induction n with
  | zero => rfl
  | succ n ih => simp [waitEvents, renderCount, ih]

theorem renderCount_rows (inp : In) (is : List Nat) :
    renderCount (is.flatMap (rowEvents inp)) = 0 := by
  induction is with
  | nil => rfl
  | cons i is ih =>
    rw [List.flatMap_cons, renderCount_append, ih]
    have hrow : ∀ js : List Nat, renderCount (js.flatMap (cellEvents inp i)) = 0 := by
      intro js
      induction js with
      | nil => rfl
      | cons j js ihj =>
        rw [List.flatMap_cons, renderCount_append, ihj]
        rfl
    show renderCount ((List.range 16).flatMap (cellEvents inp i)) + 0 = 0
    rw [hrow]

theorem renderCount_displayEvents (inp : In) : renderCount (displayEvents inp) = 1 := by
  show renderCount ((List.range 32).flatMap (rowEvents inp)) + 1 = 1
  rw [renderCount_rows]

theorem displayEvents_silent (inp : In) (e : Ev) (he : e ∈ displayEvents inp) :
    e.silent = true := by
  rcases displayEvents_kind inp e he with h | ⟨v, h⟩ | ⟨v, h⟩ | ⟨q, h⟩ <;> subst h <;> rfl

theorem silent_keepsValid (e : Ev) (he : e.silent = true) : e.keepsValid = true := by
  cases e with
  | write p v => cases p <;> simp_all [Ev.silent, Ev.keepsValid]
  | _ => rfl

theorem waitEvents_silent (n : Nat) (e : Ev) (he : e ∈ waitEvents n) : e.silent = true := by
  induction n with
  | zero => cases he
  | succ n ih =>
    simp only [waitEvents, List.mem_cons] at he
    rcases he with h | h | h
    · subst h; rfl
    · subst h; rfl
    · exact ih h

theorem annotate_keeps (c : Nat) (a b : List Ev) (ha : ∀ e ∈ a, e.keepsValid = true) :
    annotate c (a ++ b) = a.map (fun e => (c, e)) ++ annotate c b := by
  induction a with
  | nil => rfl
  | cons e a ih =>
    have h1 : e.keepsValid = true := ha e (List.mem_cons_self _ _)
    have h2 := ih (fun x hx => ha x (List.mem_cons_of_mem _ hx))
    cases e with
    | write p v => cases p <;> simp_all [annotate, Ev.keepsValid]
    | _ => simp_all [annotate]

theorem annotate_write (c w : Nat) (es : List Ev) :
    annotate c (Ev.write Pin.opcode_v_i w :: es)
      = (c, Ev.write Pin.opcode_v_i w) :: annotate w es := by
  simp [annotate]

theorem annotate_tick (c : Nat) (es : List Ev) :
    annotate c (Ev.tick :: es) = (c, Ev.tick) :: annotate c es := by
  simp [annotate]

theorem annotate_readDone (c : Nat) (b : Bool) (es : List Ev) :
    annotate c (Ev.readDone b :: es) = (c, Ev.readDone b) :: annotate c es := by
  simp [annotate]

theorem monitor_silent (i : Bool) (a b : List Ev) (ha : ∀ e ∈ a, e.silent = true) :
    monitor (Proto.idle i) (a ++ b) = monitor (Proto.idle i) b := by
  induction a with
  | nil => rfl
  | cons e a ih =>
    have h1 : e.silent = true := ha e (List.mem_cons_self _ _)
    have h2 := ih (fun x hx => ha x (List.mem_cons_of_mem _ hx))
    have h3 : Proto.next (Proto.idle i) e = some (Proto.idle i) := by
      cases e with
      | write p v => cases p <;> simp_all [Ev.silent, Proto.next]
      | readDone b => cases b <;> simp_all [Ev.silent, Proto.next]
      | _ => cases i <;> rfl
    simp [monitor, h3, h2]

theorem monitor_wait (n : Nat) (b : List Ev) :
    monitor Proto.waiting (waitEvents n ++ b) = monitor Proto.waiting b := by
  induction n with
  | zero => rfl
  | succ n ih => exact ih

theorem monitor_append (s : Proto) (a b : List Ev) :
    monitor s (a ++ b) = (monitor s a).bind (fun t => monitor t b) := by
  induction a generalizing s with
  | nil => rfl
  | cons e a ih =>
    simp only [List.cons_append, monitor]
    cases Proto.next s e with
    | none => rfl
    | some t => exact ih t

theorem waitEvents_keeps (n : Nat) (e : Ev) (he : e ∈ waitEvents n) : e.keepsValid = true :=
  silent_keepsValid e (waitEvents_silent n e he)

theorem displayEvents_keeps (inp : In) (e : Ev) (he : e ∈ displayEvents inp) :
    e.keepsValid = true :=
  silent_keepsValid e (displayEvents_silent inp e he)

/-- The entries of one completed cycle, each with the value of `opcode_v_i`
in force. -/
theorem annotate_cycle (c n : Nat) (inp : In) (rest : List Ev) :
    annotate c (handshakeEvents n ++ (displayEvents inp ++ rest))
      = (c, Ev.write Pin.opcode_v_i 1) :: (1, Ev.tick) ::
          ((waitEvents n).map (fun e => (1, e)) ++
            ((1, Ev.readDone true) :: (1, Ev.tick) :: (1, Ev.write Pin.opcode_v_i 0) ::
              (0, Ev.tick) :: ((displayEvents inp).map (fun e => (0, e)) ++ annotate 0 rest))) := by
  unfold handshakeEvents
  simp only [List.cons_append, List.nil_append, List.append_assoc]
  rw [annotate_write, annotate_tick, annotate_keeps 1 _ _ (waitEvents_keeps n), annotate_readDone,
    annotate_tick, annotate_write, annotate_tick, annotate_keeps 0 _ _ (displayEvents_keeps inp)]

theorem filter_wait_tick (v n : Nat) :
    (((waitEvents n).map (fun e => (v, e))).filter (fun p => decide (p.2 = Ev.tick))).map Prod.fst
      = List.replicate n v := by
  induction n with
  | zero => rfl
  | succ n ih =>
    simp only [waitEvents, List.map_cons, List.replicate_succ]
    rw [List.filter_cons_of_neg (by simp), List.filter_cons_of_pos (by simp), List.map_cons, ih]

theorem filter_display_tick (v : Nat) (inp : In) :
    ((displayEvents inp).map (fun e => (v, e))).filter (fun p => decide (p.2 = Ev.tick)) = [] := by
  rw [List.filter_eq_nil_iff]
  intro p hp
  obtain ⟨x, hx1, hx2⟩ := List.mem_map.1 hp
  subst hx2
  have hne : x ≠ Ev.tick := by
    rcases displayEvents_kind inp x hx1 with h | ⟨_, h⟩ | ⟨_, h⟩ | ⟨_, h⟩ <;> simp [h]
  simpa using hne

/-- In a completed cycle whose wait loop body runs `n` times, `n + 2` ticks are
taken with valid set, followed by one with valid clear. -/
theorem tickValids_cycle (c n : Nat) (inp : In) :
    tickValids c (handshakeEvents n ++ displayEvents inp) = List.replicate (n + 2) 1 ++ [0] := by
  have h := annotate_cycle c n inp []
  rw [List.append_nil] at h
  unfold tickValids
  rw [h]
  have e0 : annotate 0 [] = [] := rfl
  rw [e0, List.append_nil, List.filter_cons_of_neg (by simp), List.filter_cons_of_pos (by simp),
    List.filter_append, List.filter_cons_of_neg (by simp), List.filter_cons_of_pos (by simp),
    List.filter_cons_of_neg (by simp), List.filter_cons_of_pos (by simp), filter_display_tick]
  simp only [List.map_cons, List.map_append, filter_wait_tick, List.map_nil]
  rw [List.replicate_succ, List.replicate_succ']
  simp

theorem ticksWhile_cycle_one (c n : Nat) (inp : In) :
    ticksWhile 1 c (handshakeEvents n ++ displayEvents inp) = n + 2 := by
  unfold ticksWhile
  rw [tickValids_cycle]
  simp [List.count_append, List.count_replicate]

theorem ticksWhile_cycle_zero (c n : Nat) (inp : In) :
    ticksWhile 0 c (handshakeEvents n ++ displayEvents inp) = 1 := by
  unfold ticksWhile
  rw [tickValids_cycle]
  simp [List.count_append, List.count_replicate]

theorem tickCount_cycle (n : Nat) (inp : In) :
    tickCount (handshakeEvents n ++ displayEvents inp) = n + 3 := by
  unfold handshakeEvents
  rw [tickCount_append, tickCount_append, tickCount_append, tickCount_waitEvents,
    displayEvents_no_tick]
  have e1 : tickCount [Ev.write Pin.opcode_v_i 1, Ev.tick] = 1 := rfl
  have e2 : tickCount [Ev.readDone true, Ev.tick, Ev.write Pin.opcode_v_i 0, Ev.tick] = 2 := rfl
  rw [e1, e2]
  omega

theorem renderCount_cycle (n : Nat) (inp : In) :
    renderCount (handshakeEvents n ++ displayEvents inp) = 1 := by
  unfold handshakeEvents
  rw [renderCount_append, renderCount_append, renderCount_append, renderCount_waitEvents,
    renderCount_displayEvents]
  rfl

theorem waitEvents_no_eval (n : Nat) (q : In) : Ev.eval q ∉ waitEvents n := by
  intro hq
  induction n with
  | zero => cases hq
  | succ n ih =>
    simp only [waitEvents, List.mem_cons] at hq
    rcases hq with h2 | h2 | h2
    · cases h2
    · cases h2
    · exact ih h2

theorem evals_cycle (c n : Nat) (inp : In) (v : Nat) (q : In)
    (hq : (v, Ev.eval q) ∈ annotate c (handshakeEvents n ++ displayEvents inp)) : v = 0 := by
  have h := annotate_cycle c n inp []
  rw [List.append_nil] at h
  rw [h] at hq
  simp only [List.mem_cons, List.mem_append, List.mem_map, Prod.mk.injEq, annotate,
    List.not_mem_nil, or_false] at hq
  rcases hq with h1 | h1 | h1 | h1 | h1 | h1 | h1 | h1
  · exact absurd h1.2 (by simp)
  · exact absurd h1.2 (by simp)
  · obtain ⟨x, hx, _, hx2⟩ := h1
    subst hx2
    exact absurd hx (waitEvents_no_eval n q)
  · exact absurd h1.2 (by simp)
  · exact absurd h1.2 (by simp)
  · exact absurd h1.2 (by simp)
  · exact absurd h1.2 (by simp)
  · obtain ⟨x, _, hv, _⟩ := h1
    exact hv.symm

theorem monitor_cycle (n : Nat) (inp : In) (rest : List Ev) :
    monitor (Proto.idle true) (handshakeEvents n ++ (displayEvents inp ++ rest))
      = monitor (Proto.idle false) rest := by
  unfold handshakeEvents
  simp only [List.cons_append, List.nil_append, List.append_assoc]
  have e1 : ∀ es, monitor (Proto.idle true) (Ev.write Pin.opcode_v_i 1 :: Ev.tick :: es)
      = monitor Proto.waiting es := fun es => rfl
  have e2 : ∀ es, monitor Proto.waiting
      (Ev.readDone true :: Ev.tick :: Ev.write Pin.opcode_v_i 0 :: Ev.tick :: es)
      = monitor (Proto.idle false) es := fun es => rfl
  rw [e1, monitor_wait, e2, monitor_silent _ _ _ (displayEvents_silent inp)]

theorem monitor_stuck (n : Nat) :
    monitor (Proto.idle true)
      ([Ev.write Pin.opcode_v_i 1, Ev.tick] ++ waitEvents n ++ [Ev.readDone false])
      = some Proto.waiting := by
  simp only [List.cons_append, List.nil_append, List.append_assoc]
  have e1 : ∀ es, monitor (Proto.idle true) (Ev.write Pin.opcode_v_i 1 :: Ev.tick :: es)
      = monitor Proto.waiting es := fun es => rfl
  rw [e1, monitor_wait]
  rfl

/-! ## The valid/done handshake -/

/-- The render leaves the device's pins other than the query position as
they were when it was entered. -/
theorem displayEvents_eval_pins (inp q : In) (hq : Ev.eval q ∈ displayEvents inp) :
    q.opcode_v_i = inp.opcode_v_i ∧ q.opcode_i = inp.opcode_i := by
  unfold displayEvents at hq
  rcases List.mem_cons.1 hq with h0 | h0
  · cases h0
  · obtain ⟨i, _, hi⟩ := List.mem_flatMap.1 h0
    unfold rowEvents at hi
    rcases List.mem_cons.1 hi with h1 | h1
    · cases h1
    · obtain ⟨j, _, hj⟩ := List.mem_flatMap.1 h1
      unfold cellEvents at hj
      rcases List.mem_cons.1 hj with h2 | h2
      · cases h2
      · rcases List.mem_cons.1 h2 with h3 | h3
        · cases h3
          exact ⟨rfl, rfl⟩
        · cases h3

theorem patternWrapper_done (k : Nat) (d : Dut Unit) :
    (ticks patternWrapper (k + 1) d).out.done_o = true := by
  induction k generalizing d with
  | zero => rfl
  | succ k ih =>
    rw [ticks_succ]
    exact ih _

/-- C9: when `done_o` is first asserted after `k ≥ 1` ticks taken with valid
set, one command cycle completes and performs exactly `k + 2` ticks: `k + 1`
with `opcode_v_i = 1` followed by exactly one with `opcode_v_i = 0`; so with
`k ≤ N` it performs at most `N + 2` ticks. -/
theorem commandCycle_ticks (W : TestWrapper σ) (h : Harness σ) (k N fuel : Nat)
    (hk : 1 ≤ k)
    (hdone : (ticks W k { h.dut with inp := h.dut.inp.set Pin.opcode_v_i 1 }).out.done_o = true)
    (hfirst : ∀ j, 1 ≤ j → j < k →
      (ticks W j { h.dut with inp := h.dut.inp.set Pin.opcode_v_i 1 }).out.done_o = false)
    (hN : k ≤ N) (hfuel : k ≤ fuel + 1) :
    ∃ h' es, commandCycle W fuel h = Outcome.running h' ∧
      h'.log = h.log ++ es ∧
      tickCount es = k + 2 ∧
      (∀ c, tickValids c es = List.replicate (k + 1) 1 ++ [0]) ∧
      (∀ c, ticksWhile 1 c es = k + 1) ∧
      (∀ c, ticksWhile 0 c es = 1) ∧
      tickCount es ≤ N + 2 := by
  rcases commandCycle_spec W fuel h with ⟨n, _, hrun, hd, hbefore⟩ | ⟨_, hnone⟩
  · have hn : n + 1 = k := by
      rcases Nat.lt_trichotomy (n + 1) k with hlt | heq | hgt
      · have := hfirst (n + 1) (by omega) hlt
        rw [hd] at this
        cases this
      · exact heq
      · have := hbefore (k - 1) (by omega)
        rw [show k - 1 + 1 = k by omega, hdone] at this
        cases this
    subst hn
    refine ⟨_, handshakeEvents n ++ displayEvents (afterHandshake W n h.dut).inp, hrun, ?_, ?_, ?_,
      ?_, ?_, ?_⟩
    · rw [display_log, List.append_assoc]
    · rw [tickCount_cycle]
    · intro c; rw [tickValids_cycle]
    · intro c; rw [ticksWhile_cycle_one]
    · intro c; rw [ticksWhile_cycle_zero]
    · rw [tickCount_cycle]; omega
  · have := hnone (k - 1) (by omega)
    rw [show k - 1 + 1 = k by omega, hdone] at this
    cases this

/-- Witness of C9 on the sample engine, whose commands complete after three
ticks: the cycle takes five ticks. -/
theorem commandCycle_ticks_witness :
    ∃ h' es, commandCycle (specWrapper sampleSpec) 2 (startOf (specWrapper sampleSpec) []) =
        Outcome.running h' ∧
      h'.log = (startOf (specWrapper sampleSpec) []).log ++ es ∧
      tickCount es = 3 + 2 ∧
      (∀ c, tickValids c es = List.replicate (3 + 1) 1 ++ [0]) ∧
      (∀ c, ticksWhile 1 c es = 3 + 1) ∧
      (∀ c, ticksWhile 0 c es = 1) ∧
      tickCount es ≤ 3 + 2 :=
  commandCycle_ticks (specWrapper sampleSpec) (startOf (specWrapper sampleSpec) []) 3 3 2
    (by decide) (by decide)
    (by
      intro j h1 h2
      have hj : j = 1 ∨ j = 2 := by omega
      rcases hj with rfl | rfl <;> decide)
    (by decide) (by decide)

theorem tickValids_stuck (c n : Nat) :
    tickValids c ([Ev.write Pin.opcode_v_i 1, Ev.tick] ++ waitEvents n ++ [Ev.readDone false])
      = List.replicate (n + 1) 1 := by
  unfold tickValids
  simp only [List.cons_append, List.nil_append]
  rw [annotate_write, annotate_tick, annotate_keeps 1 _ _ (waitEvents_keeps n), annotate_readDone]
  have e0 : annotate 1 [] = [] := rfl
  rw [e0, List.filter_cons_of_neg (by simp), List.filter_cons_of_pos (by simp),
    List.filter_append, List.filter_cons_of_neg (by simp)]
  simp only [List.map_cons, List.map_append, filter_wait_tick, List.filter_nil, List.map_nil,
    List.append_nil]
  rw [List.replicate_succ]

theorem count_readDone_wait (n : Nat) : (waitEvents n).count (Ev.readDone false) = n := by
  induction n with
  | zero => rfl
  | succ n ih => simp [waitEvents, List.count_cons, ih]

theorem count_readDone_display (inp : In) (b : Bool) :
    (displayEvents inp).count (Ev.readDone b) = 0 := by
  rw [List.count_eq_zero]
  intro hmem
  rcases displayEvents_kind inp _ hmem with h | ⟨_, h⟩ | ⟨_, h⟩ | ⟨_, h⟩ <;> cases h

theorem count_readDone_cycle (n : Nat) (inp : In) :
    (handshakeEvents n ++ displayEvents inp).count (Ev.readDone false) = n := by
  unfold handshakeEvents
  rw [List.count_append, List.count_append, List.count_append, count_readDone_wait,
    count_readDone_display]
  simp [List.count_cons]

/-- C4 (amended): valid is not asserted for a single tick but held through the
wait: when the wait loop body runs `n` times (it reads `done_o` clear `n`
times), exactly `n + 2` ticks, at least two, are performed while
`opcode_v_i = 1`, followed by exactly one tick with `opcode_v_i = 0`; when the
budget runs out during the wait, valid is still set. -/
theorem valid_held_through_wait (W : TestWrapper σ) (fuel : Nat) (h : Harness σ) :
    (∃ n h' es, n ≤ fuel ∧ commandCycle W fuel h = Outcome.running h' ∧
      h'.log = h.log ++ es ∧
      es.count (Ev.readDone false) = n ∧
      (∀ c, tickValids c es = List.replicate (n + 2) 1 ++ [0]) ∧
      (∀ c, ticksWhile 1 c es = n + 2) ∧
      (∀ c, ticksWhile 0 c es = 1)) ∨
    (∃ h' es, commandCycle W fuel h = Outcome.diverged h' ∧
      h'.log = h.log ++ es ∧
      ∀ c, tickValids c es = List.replicate (fuel + 1) 1) := by
  rcases commandCycle_spec W fuel h with ⟨n, hn, hrun, _, _⟩ | ⟨hdiv, _⟩
  · left
    refine ⟨n, _, handshakeEvents n ++ displayEvents (afterHandshake W n h.dut).inp, hn, hrun,
      ?_, count_readDone_cycle n _, ?_, ?_, ?_⟩
    · rw [display_log, List.append_assoc]
    · intro c; rw [tickValids_cycle]
    · intro c; rw [ticksWhile_cycle_one]
    · intro c; rw [ticksWhile_cycle_zero]
  · right
    exact ⟨_, _, hdiv, rfl, fun c => tickValids_stuck c fuel⟩

/-- Counterexample to C4 as stated: on the pattern device, which asserts
`done_o` at the first tick, the command cycle performs two ticks, not one,
while `opcode_v_i = 1`. -/
theorem single_valid_tick_fails :
    ∃ h', commandCycle patternWrapper 0 (startOf patternWrapper []) = Outcome.running h' ∧
      ticksWhile 1 0 h'.log = 2 ∧ ticksWhile 1 0 h'.log ≠ 1 := by
  rcases commandCycle_spec patternWrapper 0 (startOf patternWrapper []) with
    ⟨n, hn, hrun, _, _⟩ | ⟨_, hnone⟩
  · have h0 : n = 0 := by omega
    subst h0
    refine ⟨_, hrun, ?_⟩
    rw [display_log]
    have e : (startOf patternWrapper []).log = [] := rfl
    simp only [e, List.nil_append]
    rw [ticksWhile_cycle_one]
    exact ⟨rfl, by decide⟩
  · have := hnone 0 (le_refl 0)
    rw [patternWrapper_done] at this
    cases this

theorem poke_valid_afterHandshake (W : TestWrapper σ) (hW : TickKeepsValid W) (n : Nat)
    (d : Dut σ) : (afterHandshake W n d).inp.opcode_v_i = 0 := by
  unfold afterHandshake
  simp only []
  rw [hW]
  rfl

theorem patternWrapper_keepsValid : TickKeepsValid patternWrapper := by
  intro b d
  rfl

/-! ## The key bindings -/

theorem keySwitch_of_ne (c : Char) (hc : c ≠ 'q') : keySwitch c = some (promptBinding c) := by
  by_cases h1 : c = 'n'
  · subst h1; rfl
  by_cases h2 : c = 's'
  · subst h2; rfl
  by_cases h3 : c = 'a'
  · subst h3; rfl
  by_cases h4 : c = 'd'
  · subst h4; rfl
  by_cases h5 : c = 'x'
  · subst h5; rfl
  by_cases h6 : c = 'c'
  · subst h6; rfl
  by_cases h7 : c = 'k'
  · subst h7; rfl
  have e1 : keySwitch c = some Opcode.eNop := by
    unfold keySwitch
    simp [h1, h2, h3, h4, h5, h6, h7, hc]
  have e2 : promptBinding c = Opcode.eNop := by
    unfold promptBinding
    split <;> first | rfl | contradiction
  rw [e1, e2]

theorem keySwitch_other (c : Char)
    (hc : c ∉ ['n', 's', 'a', 'd', 'x', 'c', 'k', 'q']) : keySwitch c = some Opcode.eNop := by
  simp only [List.mem_cons, List.not_mem_nil, or_false, not_or] at hc
  obtain ⟨h1, h2, h3, h4, h5, h6, h7, h8⟩ := hc
  unfold keySwitch
  simp [h1, h2, h3, h4, h5, h6, h7, h8]

/-- C2: for every character other than 'q' the `switch` selects the opcode
the prompt documents for it ('n' new, 's' move down, 'a' move left, 'd' move
right, 'x' rotate, 'c' commit, 'k' check) and `eNop` for every other
character, and that opcode is the value assigned to `opcode_i` before the
handshake; the opcodes the harness can issue are the eight of the vocabulary,
each issued by some character. -/
theorem keySwitch_matches_prompt :
    (∀ c, c ≠ 'q' → keySwitch c = some (promptBinding c)) ∧
    keySwitch 'n' = some Opcode.eNew ∧
    keySwitch 's' = some Opcode.eMoveDown ∧
    keySwitch 'a' = some Opcode.eMoveLeft ∧
    keySwitch 'd' = some Opcode.eMoveRight ∧
    keySwitch 'x' = some Opcode.eRotate ∧
    keySwitch 'c' = some Opcode.eCommit ∧
    keySwitch 'k' = some Opcode.eCheck ∧
    (∀ c, c ∉ ['n', 's', 'a', 'd', 'x', 'c', 'k', 'q'] → keySwitch c = some Opcode.eNop) ∧
    (∀ op, ∃ c, c ≠ 'q' ∧ keySwitch c = some op) ∧
    Fintype.card Opcode = 8 ∧
    (∀ (τ : Type) (W : TestWrapper τ) (fuel : Nat) (h : Harness τ) (c : Char) (rest : List Char),
      h.stdin = c :: rest → c ≠ 'q' →
      loopBody W fuel h = commandCycle W fuel
        (poke Pin.opcode_i (W.enc (promptBinding c))
          { h with stdout := h.stdout ++ promptText.toList ++ ['\n'], stdin := rest }) ∧
      (poke Pin.opcode_i (W.enc (promptBinding c))
          { h with stdout := h.stdout ++ promptText.toList ++ ['\n'], stdin := rest }).dut.inp.opcode_i
        = W.enc (promptBinding c)) := by
  refine ⟨keySwitch_of_ne, rfl, rfl, rfl, rfl, rfl, rfl, rfl, keySwitch_other, ?_, rfl, ?_⟩
  · intro op
    cases op
    · exact ⟨' ', by decide, rfl⟩
    · exact ⟨'n', by decide, rfl⟩
    · exact ⟨'s', by decide, rfl⟩
    · exact ⟨'a', by decide, rfl⟩
    · exact ⟨'d', by decide, rfl⟩
    · exact ⟨'x', by decide, rfl⟩
    · exact ⟨'c', by decide, rfl⟩
    · exact ⟨'k', by decide, rfl⟩
  · intro τ W fuel h c rest hs hc
    refine ⟨?_, rfl⟩
    unfold loopBody
    simp only [scanfChar, puts, hs, keySwitch_of_ne c hc]

/-- Witness of C2 at the newline character, which is no key binding. -/
theorem keySwitch_matches_prompt_witness :
    '\n' ≠ 'q' ∧ keySwitch '\n' = some (promptBinding '\n') ∧
      promptBinding '\n' = Opcode.eNop :=
  ⟨by decide, keySwitch_matches_prompt.1 '\n' (by decide), rfl⟩

/-! ## Lemmas on the command loop -/

theorem loopBody_cons (W : TestWrapper σ) (fuel : Nat) (h : Harness σ) (c : Char)
    (rest : List Char) (hs : h.stdin = c :: rest) :
    loopBody W fuel h =
      match keySwitch c with
      | none => Outcome.returned 0
          { h with stdout := h.stdout ++ promptText.toList ++ ['\n'], stdin := rest }
      | some op => commandCycle W fuel
          (poke Pin.opcode_i (W.enc op)
            { h with stdout := h.stdout ++ promptText.toList ++ ['\n'], stdin := rest }) := by
  unfold loopBody
  simp only [scanfChar, puts, hs]

theorem loopBody_nil (W : TestWrapper σ) (fuel : Nat) (h : Harness σ) (hs : h.stdin = []) :
    loopBody W fuel h = commandCycle W fuel
      (poke Pin.opcode_i (W.enc Opcode.eNop)
        { h with stdout := h.stdout ++ promptText.toList ++ ['\n'] }) := by
  unfold loopBody
  simp only [scanfChar, puts, hs]
  rfl

theorem keySwitch_q : keySwitch 'q' = none := rfl

/-- When `done_o` is asserted after `k + 1` ticks with valid set, the cycle
completes in the same way under every budget of at least `k`: its wait loop
body runs `n ≤ k` times, `n + 1` being the first tick with `done_o` set. -/
theorem commandCycle_stable (W : TestWrapper σ) (h : Harness σ) (k : Nat)
    (hk : (ticks W (k + 1) { h.dut with inp := h.dut.inp.set Pin.opcode_v_i 1 }).out.done_o
      = true) :
    ∃ n, n ≤ k ∧
      (ticks W (n + 1) { h.dut with inp := h.dut.inp.set Pin.opcode_v_i 1 }).out.done_o = true ∧
      (∀ j, j < n →
        (ticks W (j + 1) { h.dut with inp := h.dut.inp.set Pin.opcode_v_i 1 }).out.done_o
          = false) ∧
      ∀ fuel, k ≤ fuel → commandCycle W fuel h = Outcome.running
        (displayCurrentInfo W
          { dut := afterHandshake W n h.dut, stdin := h.stdin, stdout := h.stdout,
            log := h.log ++ handshakeEvents n }) := by
  rcases commandCycle_spec W k h with ⟨n, hn, _, hd, hbefore⟩ | ⟨_, hnone⟩
  · refine ⟨n, hn, hd, hbefore, ?_⟩
    intro fuel hf
    rcases commandCycle_spec W fuel h with ⟨n', _, hrun', hd', hbefore'⟩ | ⟨_, hnone'⟩
    · have hnn : n' = n := by
        rcases Nat.lt_trichotomy n' n with hlt | heq | hgt
        · have := hbefore n' hlt
          rw [hd'] at this
          cases this
        · exact heq
        · have := hbefore' n hgt
          rw [hd] at this
          cases this
      rw [← hnn]
      exact hrun'
    · have := hnone' k hf
      rw [hk] at this
      cases this
  · have := hnone k (le_refl k)
    rw [hk] at this
    cases this

theorem displayCell_dut (W : TestWrapper σ) (j : Nat) (h : Harness σ) :
    (displayCell W j h).dut
      = evalDut W { h.dut with inp := h.dut.inp.set Pin.dis_logic_x_i j } := by
  unfold displayCell
  simp only [poke, evalH, printf, evalDut]
  split_ifs <;> rfl

/-- The render keeps the device in a set of states that its assignments and
`eval` calls preserve. -/
theorem display_ready (W : TestWrapper σ) (Ready : Dut σ → Prop)
    (hq : ∀ d v, Ready d →
      Ready { d with inp := d.inp.set Pin.dis_logic_y_i v } ∧
      Ready (evalDut W { d with inp := d.inp.set Pin.dis_logic_x_i v }))
    (h : Harness σ) (hR : Ready h.dut) : Ready (displayCurrentInfo W h).dut := by
  have cells : ∀ (js : List Nat) (g : Harness σ), Ready g.dut →
      Ready (js.foldl (fun acc j => displayCell W j acc) g).dut := by
    intro js
    induction js with
    | nil => intro g hg; exact hg
    | cons j js ih =>
      intro g hg
      rw [List.foldl_cons]
      apply ih
      rw [displayCell_dut]
      exact (hq g.dut j hg).2
  have rows : ∀ (is : List Nat) (g : Harness σ), Ready g.dut →
      Ready (is.foldl (fun acc i => displayRow W i acc) g).dut := by
    intro is
    induction is with
    | nil => intro g hg; exact hg
    | cons i is ih =>
      intro g hg
      rw [List.foldl_cons]
      apply ih
      have e : (displayRow W i g).dut
          = ((List.range 16).foldl (fun acc j => displayCell W j acc)
              (poke Pin.dis_logic_y_i i g)).dut := rfl
      rw [e]
      exact cells (List.range 16) (poke Pin.dis_logic_y_i i g) (hq g.dut i hg).1
  have e : (displayCurrentInfo W h).dut
      = ((List.range 32).foldl (fun acc i => displayRow W i acc)
          (puts "Board Info:" { h with log := h.log ++ [Ev.display] })).dut := rfl
  rw [e]
  exact rows (List.range 32) (puts "Board Info:" { h with log := h.log ++ [Ev.display] }) hR

theorem issued_silent (cur : Nat) (a b : List Ev) (ha : ∀ e ∈ a, e.silent = true) :
    issued cur (a ++ b) = issued cur b := by
  induction a with
  | nil => rfl
  | cons e a ih =>
    have h1 : e.silent = true := ha e (List.mem_cons_self _ _)
    have h2 := ih (fun x hx => ha x (List.mem_cons_of_mem _ hx))
    cases e with
    | write p v => cases p <;> simp_all [issued, Ev.silent]
    | _ => simp_all [issued]

theorem issued_cycle (cur : Nat) (t : Nat × Nat × In) (rest : List Ev) :
    issued cur (cycleEvents t ++ rest) = t.1 :: issued t.1 rest := by
  unfold cycleEvents handshakeEvents
  simp only [List.cons_append, List.nil_append, List.append_assoc]
  have e1 : ∀ es, issued cur (Ev.write Pin.opcode_i t.1 :: Ev.write Pin.opcode_v_i 1 ::
      Ev.tick :: es) = t.1 :: issued t.1 es := fun es => by simp [issued]
  have e2 : ∀ es, issued t.1 (Ev.readDone true :: Ev.tick :: Ev.write Pin.opcode_v_i 0 ::
      Ev.tick :: es) = issued t.1 es := fun es => by simp [issued]
  rw [e1, issued_silent _ _ _ (waitEvents_silent t.2.1), e2,
    issued_silent _ _ _ (displayEvents_silent t.2.2)]

theorem issued_cycles (cur : Nat) (cs : List (Nat × Nat × In)) :
    issued cur (cs.flatMap cycleEvents) = cs.map (fun t => t.1) := by
  induction cs generalizing cur with
  | nil => rfl
  | cons t cs ih => rw [List.flatMap_cons, issued_cycle, ih, List.map_cons]

theorem renderCount_cycles (cs : List (Nat × Nat × In)) :
    renderCount (cs.flatMap cycleEvents) = cs.length := by
  induction cs with
  | nil => rfl
  | cons t cs ih =>
    rw [List.flatMap_cons, renderCount_append, ih, List.length_cons]
    have e : renderCount (cycleEvents t) = 1 := by
      show renderCount (handshakeEvents t.2.1 ++ displayEvents t.2.2) = 1
      exact renderCount_cycle _ _
    omega

theorem monitor_cycleEvents (a : Bool) (t : Nat × Nat × In) (rest : List Ev) :
    monitor (Proto.idle a) (cycleEvents t ++ rest) = monitor (Proto.idle false) rest := by
  unfold cycleEvents
  have e1 : ∀ es, monitor (Proto.idle a) (Ev.write Pin.opcode_i t.1 :: es)
      = monitor (Proto.idle true) es := fun es => by cases a <;> rfl
  rw [List.cons_append, e1, List.append_assoc, monitor_cycle]

theorem commandLoop_succ_running (W : TestWrapper σ) (fuel m : Nat) (h h1 : Harness σ)
    (hb : loopBody W fuel h = Outcome.running h1) :
    commandLoop W fuel (m + 1) h = commandLoop W fuel m h1 := by
  simp only [commandLoop, hb]

theorem commandLoop_succ_returned (W : TestWrapper σ) (fuel m : Nat) (h h1 : Harness σ)
    (code : Int) (hb : loopBody W fuel h = Outcome.returned code h1) :
    commandLoop W fuel (m + 1) h = Outcome.returned code h1 := by
  simp only [commandLoop, hb]

theorem commandLoop_succ_diverged (W : TestWrapper σ) (fuel m : Nat) (h h1 : Harness σ)
    (hb : loopBody W fuel h = Outcome.diverged h1) :
    commandLoop W fuel (m + 1) h = Outcome.diverged h1 := by
  simp only [commandLoop, hb]

/-- One iteration on a key other than 'q' with a device that completes. -/
theorem loopBody_key (W : TestWrapper σ) (Ready : Dut σ → Prop) (hC : CompletesFrom W Ready)
    (h : Harness σ) (hR : Ready h.dut) (c : Char) (rest : List Char)
    (hs : h.stdin = c :: rest) (hc : c ≠ 'q') :
    ∃ F h1 n inp, (∀ fuel, F ≤ fuel → loopBody W fuel h = Outcome.running h1) ∧
      h1.log = h.log ++ cycleEvents (W.enc (promptBinding c), n, inp) ∧
      h1.stdin = rest ∧ Ready h1.dut := by
  obtain ⟨k, hk⟩ := hC.1 h.dut (W.enc (promptBinding c)) hR
  obtain ⟨n, _, hd, hfirst, hrun⟩ := commandCycle_stable W
    (poke Pin.opcode_i (W.enc (promptBinding c))
      { h with stdout := h.stdout ++ promptText.toList ++ ['\n'], stdin := rest }) k hk
  have hb0 : ∀ fuel, loopBody W fuel h = commandCycle W fuel
      (poke Pin.opcode_i (W.enc (promptBinding c))
        { h with stdout := h.stdout ++ promptText.toList ++ ['\n'], stdin := rest }) := by
    intro fuel
    rw [loopBody_cons W fuel h c rest hs, keySwitch_of_ne c hc]
  refine ⟨k, _, n, (afterHandshake W n (poke Pin.opcode_i (W.enc (promptBinding c))
      { h with stdout := h.stdout ++ promptText.toList ++ ['\n'], stdin := rest }).dut).inp,
    fun fuel hf => (hb0 fuel).trans (hrun fuel hf), ?_, ?_, ?_⟩
  · rw [display_log]
    simp [poke, cycleEvents]
  · rw [display_stdin]
    rfl
  · apply display_ready W Ready hC.2.2
    exact hC.2.1 h.dut (W.enc (promptBinding c)) n hR hd hfirst

/-- C10 (amended): for an input that contains a 'q', with a device that always
completes the commands issued to it (`CompletesFrom`, which the specified
engine satisfies), the loop (given enough budget for its waits) returns 0 on
reading the first 'q'; before that every character, key binding or not, has
caused exactly one command cycle with the opcode the `switch` selects for it
and exactly one render, in order; reading 'q' sets nothing, ticks nothing and
renders nothing, and the characters after the first 'q' stay unread. -/
theorem commandLoop_until_q (W : TestWrapper σ) (Ready : Dut σ → Prop)
    (hC : CompletesFrom W Ready)
    (pre post : List Char) (hq : 'q' ∉ pre) (m : Nat) (hm : pre.length < m)
    (h : Harness σ) (hR : Ready h.dut) (hs : h.stdin = pre ++ 'q' :: post) :
    ∃ (F : Nat) (h' : Harness σ) (cs : List (Nat × Nat × In)),
      (∀ fuel, F ≤ fuel → commandLoop W fuel m h = Outcome.returned 0 h') ∧
      h'.log = h.log ++ cs.flatMap cycleEvents ∧
      pre.map keySwitch = pre.map (fun c => some (promptBinding c)) ∧
      cs.map (fun t => t.1) = pre.map (fun c => W.enc (promptBinding c)) ∧
      (∀ cur, issued cur (cs.flatMap cycleEvents) = pre.map (fun c => W.enc (promptBinding c))) ∧
      renderCount (cs.flatMap cycleEvents) = pre.length ∧
      h'.stdin = post := by
  induction pre generalizing h m with
  | nil =>
    obtain ⟨m', rfl⟩ : ∃ m', m = m' + 1 := ⟨m - 1, by simp at hm; omega⟩
    have hb : ∀ fuel, loopBody W fuel h = Outcome.returned 0
        { h with stdout := h.stdout ++ promptText.toList ++ ['\n'], stdin := post } := by
      intro fuel
      rw [loopBody_cons W fuel h 'q' post hs, keySwitch_q]
    exact ⟨0, _, [], fun fuel _ => commandLoop_succ_returned W fuel m' h _ 0 (hb fuel),
      by simp, rfl, rfl, fun _ => rfl, rfl, rfl⟩
  | cons c pre ih =>
    obtain ⟨m', rfl⟩ : ∃ m', m = m' + 1 := ⟨m - 1, by simp at hm; omega⟩
    have hc : c ≠ 'q' := fun e => hq (e ▸ List.mem_cons_self _ _)
    have hq' : 'q' ∉ pre := fun e => hq (List.mem_cons_of_mem _ e)
    obtain ⟨F1, h1, n, inp, hb, hlog, hin, hR1⟩ :=
      loopBody_key W Ready hC h hR c (pre ++ 'q' :: post) hs hc
    obtain ⟨F2, h', cs, hrun, hlog', hkeys, hops, _, _, hrest⟩ :=
      ih hq' m' (by simp at hm; omega) h1 hR1 hin
    have hops2 : ((W.enc (promptBinding c), n, inp) :: cs).map (fun t => t.1)
        = (c :: pre).map (fun c => W.enc (promptBinding c)) := by
      rw [List.map_cons, List.map_cons, hops]
    refine ⟨max F1 F2, h', (W.enc (promptBinding c), n, inp) :: cs, ?_, ?_, ?_, hops2, ?_, ?_,
      hrest⟩
    · intro fuel hf
      rw [commandLoop_succ_running W fuel m' h h1 (hb fuel (le_trans (le_max_left _ _) hf))]
      exact hrun fuel (le_trans (le_max_right _ _) hf)
    · rw [hlog', hlog, List.flatMap_cons, List.append_assoc]
    · rw [List.map_cons, List.map_cons, hkeys, keySwitch_of_ne c hc]
    · intro cur
      rw [issued_cycles, hops2]
    · rw [renderCount_cycles, List.length_cons, ← List.length_map cs (fun t => t.1), hops,
        List.length_map, List.length_cons]

/-- One iteration at the end of the input, with a device that asserts `done_o`
after `k + 1` ticks from any state: the command `eNop` is issued. -/
theorem loopBody_eof (W : TestWrapper σ) (k : Nat)
    (hk : ∀ d : Dut σ, (ticks W (k + 1) d).out.done_o = true)
    (h : Harness σ) (hs : h.stdin = []) :
    ∃ h1 n inp, (∀ fuel, k ≤ fuel → loopBody W fuel h = Outcome.running h1) ∧
      h1.log = h.log ++ cycleEvents (W.enc Opcode.eNop, n, inp) ∧
      h1.stdin = [] := by
  obtain ⟨n, _, _, _, hrun⟩ := commandCycle_stable W
    (poke Pin.opcode_i (W.enc Opcode.eNop)
      { h with stdout := h.stdout ++ promptText.toList ++ ['\n'] }) k (hk _)
  refine ⟨_, n, (afterHandshake W n (poke Pin.opcode_i (W.enc Opcode.eNop)
      { h with stdout := h.stdout ++ promptText.toList ++ ['\n'] }).dut).inp,
    fun fuel hf => (loopBody_nil W fuel h hs).trans (hrun fuel hf), ?_, ?_⟩
  · rw [display_log]
    simp [poke, cycleEvents]
  · rw [display_stdin]
    exact hs

/-- Counterexample to C10 as stated: on the empty input, which has no
character before a 'q', `main` with the pattern device does not stop without
issuing anything: its first iteration issues the command `eNop` and renders
the board. -/
theorem empty_input_issues_nop :
    ∃ h', main patternWrapper 0 1 [] = Outcome.running h' ∧
      issued 0 h'.log = [patternWrapper.enc Opcode.eNop] ∧
      issued 0 h'.log ≠ ([] : List Char).map (fun c => patternWrapper.enc (promptBinding c)) ∧
      renderCount h'.log = 1 := by
  obtain ⟨h1, n, inp, hb, hlog, _⟩ := loopBody_eof patternWrapper 0 (patternWrapper_done 0)
    (prologue patternWrapper []) rfl
  have hrun : main patternWrapper 0 1 [] = Outcome.running h1 := by
    unfold main
    rw [commandLoop_succ_running patternWrapper 0 0 _ h1 (hb 0 (le_refl 0))]
    rfl
  have hpro : ∀ es, issued 0 ((prologue patternWrapper []).log ++ es) = issued 0 es := by
    intro es
    simp [prologue, poke, evalH, resetH, tickH, puts, issued]
  have hren : renderCount (prologue patternWrapper []).log = 0 := by
    simp [prologue, poke, evalH, resetH, tickH, puts, renderCount]
  have hiss : issued 0 h1.log = [patternWrapper.enc Opcode.eNop] := by
    rw [hlog, hpro]
    have := issued_cycle 0 (patternWrapper.enc Opcode.eNop, n, inp) []
    rw [List.append_nil] at this
    rw [this]
    rfl
  refine ⟨h1, hrun, hiss, ?_, ?_⟩
  · rw [hiss]
    decide
  · rw [hlog, renderCount_append, hren]
    show 0 + renderCount (handshakeEvents n ++ displayEvents inp) = 1
    rw [renderCount_cycle]

/-! ## The handshake over the whole run -/

/-- Every iteration either returns on 'q' without touching the device or runs
the command cycle on the state in which only `opcode_i` has been assigned. -/
theorem loopBody_shape (W : TestWrapper σ) (fuel : Nat) (h : Harness σ) :
    (∃ h1, loopBody W fuel h = Outcome.returned 0 h1 ∧ h1.log = h.log ∧ h1.dut = h.dut) ∨
    (∃ op h2, loopBody W fuel h = commandCycle W fuel (poke Pin.opcode_i (W.enc op) h2) ∧
      h2.log = h.log ∧ h2.dut = h.dut) := by
  rcases hs : h.stdin with _ | ⟨c, rest⟩
  · right
    exact ⟨Opcode.eNop, { h with stdout := h.stdout ++ promptText.toList ++ ['\n'] },
      loopBody_nil W fuel h hs, rfl, rfl⟩
  · rcases hk : keySwitch c with _ | op
    · left
      refine ⟨{ h with stdout := h.stdout ++ promptText.toList ++ ['\n'], stdin := rest },
        ?_, rfl, rfl⟩
      rw [loopBody_cons W fuel h c rest hs, hk]
    · right
      refine ⟨op, { h with stdout := h.stdout ++ promptText.toList ++ ['\n'], stdin := rest },
        ?_, rfl, rfl⟩
      rw [loopBody_cons W fuel h c rest hs, hk]

/-- Once valid is set, the monitor accepts its clearing only after an asserted
`done_o` has been read. -/
theorem monitor_waiting_clear (pre post : List Ev) (t : Proto)
    (hm : monitor Proto.waiting (pre ++ Ev.write Pin.opcode_v_i 0 :: post) = some t) :
    Ev.readDone true ∈ pre := by
  induction pre with
  | nil => simp [monitor, Proto.next] at hm
  | cons e pre ih =>
    cases e with
    | write p v =>
      cases p <;> first
        | (simp [monitor, Proto.next] at hm; done)
        | exact List.mem_cons_of_mem _ (ih hm)
    | readDone b =>
      cases b
      · exact List.mem_cons_of_mem _ (ih hm)
      · exact List.mem_cons_self _ _
    | eval q => simp [monitor, Proto.next] at hm
    | display => simp [monitor, Proto.next] at hm
    | _ => exact List.mem_cons_of_mem _ (ih hm)

theorem monitor_iteration (W : TestWrapper σ) (fuel : Nat) (h : Harness σ) (v : Nat)
    (s0 : Proto) (b : Bool) (hm : monitor s0 h.log = some (Proto.idle b)) :
    (∃ h', commandCycle W fuel (poke Pin.opcode_i v h) = Outcome.running h' ∧
      monitor s0 h'.log = some (Proto.idle false)) ∨
    (∃ h', commandCycle W fuel (poke Pin.opcode_i v h) = Outcome.diverged h' ∧
      monitor s0 h'.log = some Proto.waiting) := by
  have e1 : ∀ es, monitor (Proto.idle b) (Ev.write Pin.opcode_i v :: es)
      = monitor (Proto.idle true) es := fun es => by cases b <;> rfl
  rcases commandCycle_spec W fuel (poke Pin.opcode_i v h) with
    ⟨n, _, hrun, _, _⟩ | ⟨hdiv, _⟩
  · left
    refine ⟨_, hrun, ?_⟩
    rw [display_log]
    have hl : (poke Pin.opcode_i v h).log ++ handshakeEvents n ++
        displayEvents (afterHandshake W n (poke Pin.opcode_i v h).dut).inp
        = h.log ++ (Ev.write Pin.opcode_i v :: (handshakeEvents n ++
            (displayEvents (afterHandshake W n (poke Pin.opcode_i v h).dut).inp ++ []))) := by
      simp [poke]
    rw [hl, monitor_append, hm, Option.some_bind, e1, monitor_cycle]
    rfl
  · right
    refine ⟨_, hdiv, ?_⟩
    have hl : (poke Pin.opcode_i v h).log ++
        ([Ev.write Pin.opcode_v_i 1, Ev.tick] ++ waitEvents fuel ++ [Ev.readDone false])
        = h.log ++ (Ev.write Pin.opcode_i v ::
            ([Ev.write Pin.opcode_v_i 1, Ev.tick] ++ waitEvents fuel ++ [Ev.readDone false])) := by
      simp [poke]
    rw [hl, monitor_append, hm, Option.some_bind, e1, monitor_stuck]

/-- The monitor accepts the log of the command loop after any number of
iterations: it ends idle when the loop is still running or has returned, and
waiting when a wait ran out of budget. -/
theorem monitor_commandLoop (W : TestWrapper σ) (fuel m : Nat) (h : Harness σ) (s0 : Proto)
    (b : Bool) (hm : monitor s0 h.log = some (Proto.idle b)) :
    (∃ h' b', (commandLoop W fuel m h = Outcome.running h' ∨
        commandLoop W fuel m h = Outcome.returned 0 h') ∧
      monitor s0 h'.log = some (Proto.idle b')) ∨
    (∃ h', commandLoop W fuel m h = Outcome.diverged h' ∧
      monitor s0 h'.log = some Proto.waiting) := by
  induction m generalizing h b with
  | zero => exact Or.inl ⟨h, b, Or.inl rfl, hm⟩
  | succ m ih =>
    rcases loopBody_shape W fuel h with ⟨h1, hb, hlog, _⟩ | ⟨op, h2, hb, hlog, _⟩
    · left
      refine ⟨h1, b, Or.inr (commandLoop_succ_returned W fuel m h h1 0 hb), ?_⟩
      rw [hlog]; exact hm
    · rcases monitor_iteration W fuel h2 (W.enc op) s0 b (by rw [hlog]; exact hm) with
        ⟨h', hrun, hmon⟩ | ⟨h', hdiv, hmon⟩
      · rw [commandLoop_succ_running W fuel m h h' (hb.trans hrun)]
        exact ih h' false hmon
      · right
        exact ⟨h', commandLoop_succ_diverged W fuel m h h' (hb.trans hdiv), hmon⟩

theorem monitor_prologue (W : TestWrapper σ) (input : List Char) :
    monitor (Proto.idle false) (prologue W input).log = some (Proto.idle true) := by
  simp [prologue, poke, evalH, resetH, tickH, puts, monitor, Proto.next]

/-- The handshake monitor accepts the log of `main` for every device, input,
budget and number of iterations. -/
theorem monitor_main (W : TestWrapper σ) (fuel m : Nat) (input : List Char) :
    ∃ t, monitor (Proto.idle false) (main W fuel m input).state.log = some t := by
  unfold main
  rcases monitor_commandLoop W fuel m (prologue W input) (Proto.idle false) true
      (monitor_prologue W input) with ⟨h', b', hrun | hret, hmon⟩ | ⟨h', hdiv, hmon⟩
  · rw [hrun]; exact ⟨_, hmon⟩
  · rw [hret]; exact ⟨_, hmon⟩
  · rw [hdiv]; exact ⟨_, hmon⟩

theorem cycleEvents_eq (v n : Nat) (inp : In) :
    cycleEvents (v, n, inp) =
      Ev.write Pin.opcode_i v :: Ev.write Pin.opcode_v_i 1 :: Ev.tick ::
        (waitEvents n ++ Ev.readDone true :: Ev.tick :: Ev.write Pin.opcode_v_i 0 :: Ev.tick ::
          displayEvents inp) := by
  simp [cycleEvents, handshakeEvents]

theorem monitor_cycleEvents_nil (v n : Nat) (inp : In) :
    monitor (Proto.idle false) (cycleEvents (v, n, inp)) = some (Proto.idle false) := by
  have := monitor_cycleEvents false (v, n, inp) []
  rw [List.append_nil] at this
  rw [this]
  rfl

theorem cycleEvents_clear (v n : Nat) (inp : In) (pre post : List Ev)
    (he : cycleEvents (v, n, inp) = pre ++ Ev.write Pin.opcode_v_i 0 :: post) :
    Ev.write Pin.opcode_i v ∈ pre ∧ Ev.write Pin.opcode_v_i 1 ∈ pre ∧ Ev.readDone true ∈ pre := by
  have hm := monitor_cycleEvents_nil v n inp
  rw [cycleEvents_eq] at he
  rw [cycleEvents_eq] at hm
  match pre, he with
  | [], he => simp at he
  | [e], he => simp at he
  | e1 :: e2 :: pre', he =>
    simp only [List.cons_append, List.cons.injEq] at he
    obtain ⟨h1, h2, h3⟩ := he
    subst h1
    subst h2
    rw [h3] at hm
    have hw : monitor Proto.waiting (pre' ++ Ev.write Pin.opcode_v_i 0 :: post)
        = some (Proto.idle false) := hm
    have := monitor_waiting_clear pre' post _ hw
    simp [this]

theorem ticks_keeps (W : TestWrapper σ) (hW : TickKeepsCommand W) (j : Nat) (d : Dut σ) :
    (ticks W j d).inp.opcode_i = d.inp.opcode_i ∧
    (ticks W j d).inp.opcode_v_i = d.inp.opcode_v_i := by
  induction j generalizing d with
  | zero => exact ⟨rfl, rfl⟩
  | succ j ih =>
    rw [ticks_succ]
    exact ⟨(ih _).1.trans (hW _ d).1, (ih _).2.trans (hW _ d).2⟩

theorem patternWrapper_keepsCommand : TickKeepsCommand patternWrapper := by
  intro b d
  exact ⟨rfl, rfl⟩

/-- C3: in every command cycle, for every device, `opcode_i` is written before
`opcode_v_i` is set to 1; during the wait the harness only reads `done_o` and
ticks; `opcode_v_i` is assigned 0 only after `done_o` has been read asserted,
the wait loop having exited with `done_o` set on the device; a cycle whose
wait does not finish never clears valid.  When `tick` itself assigns neither
pin, the device sees the issued opcode and valid set after every tick of the
wait.  Over the whole run of `main`, for every input and every number of
iterations, the handshake monitor accepts the log. -/
theorem valid_cleared_after_done (W : TestWrapper σ) (fuel : Nat) :
    (∀ (h : Harness σ) (v : Nat),
      (∃ n inp h', n ≤ fuel ∧
        commandCycle W fuel (poke Pin.opcode_i v h) = Outcome.running h' ∧
        h'.log = h.log ++ cycleEvents (v, n, inp) ∧
        cycleEvents (v, n, inp) =
          Ev.write Pin.opcode_i v :: Ev.write Pin.opcode_v_i 1 :: Ev.tick ::
            (waitEvents n ++ Ev.readDone true :: Ev.tick :: Ev.write Pin.opcode_v_i 0 ::
              Ev.tick :: displayEvents inp) ∧
        (ticks W (n + 1)
          { (poke Pin.opcode_i v h).dut with
            inp := (poke Pin.opcode_i v h).dut.inp.set Pin.opcode_v_i 1 }).out.done_o = true ∧
        monitor (Proto.idle false) (cycleEvents (v, n, inp)) = some (Proto.idle false) ∧
        (∀ pre post, cycleEvents (v, n, inp) = pre ++ Ev.write Pin.opcode_v_i 0 :: post →
          Ev.write Pin.opcode_i v ∈ pre ∧ Ev.write Pin.opcode_v_i 1 ∈ pre ∧
            Ev.readDone true ∈ pre)) ∨
      (∃ h', commandCycle W fuel (poke Pin.opcode_i v h) = Outcome.diverged h' ∧
        h'.log = h.log ++ (Ev.write Pin.opcode_i v :: Ev.write Pin.opcode_v_i 1 :: Ev.tick ::
          (waitEvents fuel ++ [Ev.readDone false])) ∧
        Ev.write Pin.opcode_v_i 0 ∉ (Ev.write Pin.opcode_i v :: Ev.write Pin.opcode_v_i 1 ::
          Ev.tick :: (waitEvents fuel ++ [Ev.readDone false])))) ∧
    (∀ n e, e ∈ waitEvents n → e = Ev.readDone false ∨ e = Ev.tick) ∧
    (TickKeepsCommand W → ∀ (h : Harness σ) (v j : Nat),
      (ticks W j { (poke Pin.opcode_i v h).dut with
        inp := (poke Pin.opcode_i v h).dut.inp.set Pin.opcode_v_i 1 }).inp.opcode_i = v ∧
      (ticks W j { (poke Pin.opcode_i v h).dut with
        inp := (poke Pin.opcode_i v h).dut.inp.set Pin.opcode_v_i 1 }).inp.opcode_v_i = 1) ∧
    (∀ m input, ∃ t, monitor (Proto.idle false) (main W fuel m input).state.log = some t) := by
  refine ⟨?_, ?_, fun hW h v j => ticks_keeps W hW j _, ?_⟩
  · intro h v
    rcases commandCycle_spec W fuel (poke Pin.opcode_i v h) with
      ⟨n, hn, hrun, hdone, _⟩ | ⟨hdiv, _⟩
    · left
      refine ⟨n, (afterHandshake W n (poke Pin.opcode_i v h).dut).inp, _, hn, hrun, ?_,
        cycleEvents_eq _ _ _, hdone, monitor_cycleEvents_nil _ _ _, cycleEvents_clear _ _ _⟩
      rw [display_log]
      simp [poke, cycleEvents]
    · right
      refine ⟨_, hdiv, ?_, ?_⟩
      · simp [poke]
      · intro hmem
        simp only [List.mem_cons, List.mem_append, List.not_mem_nil, or_false] at hmem
        rcases hmem with h1 | h1 | h1 | h1 | h1
        · cases h1
        · cases h1
        · cases h1
        · have := waitEvents_silent fuel _ h1
          cases this
        · cases h1
  · intro n e he
    induction n with
    | zero => cases he
    | succ n ih =>
      simp only [waitEvents, List.mem_cons] at he
      rcases he with h1 | h1 | h1
      · exact Or.inl h1
      · exact Or.inr h1
      · exact ih h1
  · intro m input
    exact monitor_main W fuel m input

/-- Witness of C3 on the pattern device, whose `tick` assigns no input pin:
in the cycle of a command the clearing of valid comes after the reading of an
asserted `done_o`, and the device sees opcode 1 with valid set after two
ticks. -/
theorem valid_cleared_after_done_witness :
    TickKeepsCommand patternWrapper ∧
    (ticks patternWrapper 2
      { (poke Pin.opcode_i 1 (startOf patternWrapper [])).dut with
        inp := (poke Pin.opcode_i 1 (startOf patternWrapper [])).dut.inp.set
          Pin.opcode_v_i 1 }).inp.opcode_i = 1 ∧
    ∃ n inp h' pre post,
      commandCycle patternWrapper 0 (poke Pin.opcode_i 1 (startOf patternWrapper []))
        = Outcome.running h' ∧
      cycleEvents (1, n, inp) = pre ++ Ev.write Pin.opcode_v_i 0 :: post ∧
      Ev.readDone true ∈ pre := by
  refine ⟨patternWrapper_keepsCommand,
    ((valid_cleared_after_done patternWrapper 0).2.2.1 patternWrapper_keepsCommand
      (startOf patternWrapper []) 1 2).1, ?_⟩
  rcases (valid_cleared_after_done patternWrapper 0).1 (startOf patternWrapper []) 1 with
    ⟨n, inp, h', _, hrun, _, heq, _, _, hclear⟩ | ⟨h', hdiv, _, _⟩
  · have hsplit : cycleEvents (1, n, inp) =
        ([Ev.write Pin.opcode_i 1, Ev.write Pin.opcode_v_i 1, Ev.tick] ++ waitEvents n ++
          [Ev.readDone true, Ev.tick]) ++ Ev.write Pin.opcode_v_i 0 ::
            (Ev.tick :: displayEvents inp) := by
      rw [heq]
      simp
    exact ⟨n, inp, h', _, _, hrun, hsplit, (hclear _ _ hsplit).2.2⟩
  · rcases commandCycle_spec patternWrapper 0 (poke Pin.opcode_i 1 (startOf patternWrapper []))
      with ⟨_, _, hrun, _, _⟩ | ⟨_, hnone⟩
    · rw [hrun] at hdiv
      cases hdiv
    · have := hnone 0 (le_refl 0)
      rw [patternWrapper_done] at this
      cases this

/-! ## The specified engine behind the harness -/

theorem spec_ticks_inp (E : EngineSpec β) (k : Nat) (d : Dut (Engine β)) :
    (ticks (specWrapper E) k d).inp = d.inp := by
  induction k generalizing d with
  | zero => rfl
  | succ k ih =>
    rw [ticks_succ, ih]
    rfl

theorem spec_ticks_done (E : EngineSpec β) (k : Nat) (d : Dut (Engine β)) :
    (ticks (specWrapper E) (k + 1) d).out.done_o
      = decide ((ticks (specWrapper E) (k + 1) d).st.phase = Phase.Completed) := by
  induction k generalizing d with
  | zero => rfl
  | succ k ih =>
    rw [ticks_succ]
    exact ih _

/-- An executing engine with `m` steps to run asserts completion after
`m + 1` clock cycles. -/
theorem spec_executing (E : EngineSpec β) (m : Nat) (d : Dut (Engine β))
    (hr : d.inp.reset_i = 0) (hp : d.st.phase = Phase.Executing m) :
    (ticks (specWrapper E) (m + 1) d).st.phase = Phase.Completed := by
  induction m generalizing d with
  | zero =>
    show (Engine.step E d.inp d.st).phase = Phase.Completed
    simp [Engine.step, hr, hp, Engine.advance]
  | succ m ih =>
    rw [ticks_succ]
    apply ih
    · exact hr
    · show (Engine.step E d.inp d.st).phase = Phase.Executing m
      simp [Engine.step, hr, hp, Engine.advance]

/-- An idle engine that sees valid set asserts completion after the steps of
the command and one more clock cycle. -/
theorem spec_idle (E : EngineSpec β) (d : Dut (Engine β))
    (hr : d.inp.reset_i = 0) (hv : d.inp.opcode_v_i ≠ 0) (hp : d.st.phase = Phase.Idle) :
    (ticks (specWrapper E) (E.steps d.st.board d.inp.opcode_i + 1) d).st.phase
      = Phase.Completed := by
  rcases hsteps : E.steps d.st.board d.inp.opcode_i with _ | m
  · show (Engine.step E d.inp d.st).phase = Phase.Completed
    simp [Engine.step, hr, hp, hv, hsteps, Engine.advance]
  · rw [ticks_succ]
    apply spec_executing E m
    · exact hr
    · show (Engine.step E d.inp d.st).phase = Phase.Executing m
      simp [Engine.step, hr, hp, hv, hsteps, Engine.advance]

theorem spec_answers (E : EngineSpec β) (s0 : Engine β) :
    Answers (specWrapper E) (fun s => s = s0)
      (fun c r => decide (E.render s0.board c r = Cell.ActivePiece))
      (fun c r => decide (E.render s0.board c r = Cell.Committed)) := by
  intro inp s hs
  subst hs
  exact ⟨rfl, rfl, rfl⟩

/-- A completed engine keeps completion through a tick with valid set and is
idle after the tick that follows the clearing of valid. -/
theorem spec_ack (E : EngineSpec β) (d : Dut (Engine β)) (hr : d.inp.reset_i = 0)
    (hv : d.inp.opcode_v_i ≠ 0) (hp : d.st.phase = Phase.Completed) :
    ((specWrapper E).tick (some false)
      { (specWrapper E).tick (some false) d with
        inp := ((specWrapper E).tick (some false) d).inp.set Pin.opcode_v_i 0 }).st.phase
      = Phase.Idle ∧
    ((specWrapper E).tick (some false)
      { (specWrapper E).tick (some false) d with
        inp := ((specWrapper E).tick (some false) d).inp.set Pin.opcode_v_i 0 }).inp.reset_i
      = 0 := by
  obtain ⟨inp, out, st⟩ := d
  obtain ⟨board, phase, op⟩ := st
  simp only at hr hv hp
  subst hp
  constructor
  · show (Engine.step E (In.set Pin.opcode_v_i 0 inp)
      (Engine.step E inp { board := board, phase := Phase.Completed, op := op })).phase = Phase.Idle
    have e1 : Engine.step E inp { board := board, phase := Phase.Completed, op := op }
        = { board := board, phase := Phase.Completed, op := op } := by
      simp [Engine.step, hr, hv]
    rw [e1]
    simp [Engine.step, In.set, hr]
  · exact hr

/-- After the handshake the specified engine is idle again. -/
theorem spec_afterHandshake (E : EngineSpec β) (n : Nat) (d : Dut (Engine β))
    (hr : d.inp.reset_i = 0)
    (hd : (ticks (specWrapper E) (n + 1)
      { d with inp := d.inp.set Pin.opcode_v_i 1 }).out.done_o = true) :
    (afterHandshake (specWrapper E) n d).st.phase = Phase.Idle ∧
    (afterHandshake (specWrapper E) n d).inp.reset_i = 0 := by
  rw [spec_ticks_done] at hd
  have h3 : (ticks (specWrapper E) (n + 1) { d with inp := d.inp.set Pin.opcode_v_i 1 }).st.phase
      = Phase.Completed := by simpa using hd
  have i3 : (ticks (specWrapper E) (n + 1) { d with inp := d.inp.set Pin.opcode_v_i 1 }).inp
      = d.inp.set Pin.opcode_v_i 1 := spec_ticks_inp E (n + 1) _
  rw [ticks_succ] at h3 i3
  exact spec_ack E _ (by rw [i3]; exact hr) (by rw [i3]; simp [In.set]) h3

/-- One command cycle of the harness on the specified engine, entered with the
engine idle and reset released. -/
theorem spec_cycle (E : EngineSpec β) (h : Harness (Engine β))
    (hp : h.dut.st.phase = Phase.Idle) (hr : h.dut.inp.reset_i = 0) :
    ∃ n h', n ≤ E.bound ∧ commandCycle (specWrapper E) E.bound h = Outcome.running h' ∧
      h'.log = h.log ++ (handshakeEvents n ++ displayEvents (afterHandshake (specWrapper E) n h.dut).inp) ∧
      h'.stdin = h.stdin ∧
      h'.dut.st.phase = Phase.Idle ∧ h'.dut.inp.reset_i = 0 := by
  have hc := spec_idle E { h.dut with inp := h.dut.inp.set Pin.opcode_v_i 1 } hr
    (by simp [In.set]) hp
  have hdone : (ticks (specWrapper E)
      (E.steps h.dut.st.board h.dut.inp.opcode_i + 1)
      { h.dut with inp := h.dut.inp.set Pin.opcode_v_i 1 }).out.done_o = true := by
    rw [spec_ticks_done]
    simpa using hc
  rcases commandCycle_spec (specWrapper E) E.bound h with ⟨n, hn, hrun, hd, _⟩ | ⟨_, hnone⟩
  · obtain ⟨a1, a2⟩ := spec_afterHandshake E n h.dut hr hd
    refine ⟨n, _, hn, hrun, ?_, ?_, ?_, ?_⟩
    · rw [display_log, List.append_assoc]
    · rw [display_stdin]
    · have := (display_stdout (specWrapper E) _ _ _
        (spec_answers E (afterHandshake (specWrapper E) n h.dut).st)
        { dut := afterHandshake (specWrapper E) n h.dut, stdin := h.stdin, stdout := h.stdout,
          log := h.log ++ handshakeEvents n } rfl).2
      rw [this]
      exact a1
    · rw [display_inp]
      exact a2
  · have := hnone (E.steps h.dut.st.board h.dut.inp.opcode_i) (E.steps_le _ _)
    rw [hdone] at this
    cases this

/-- The command loop on the specified engine never runs out of a wait budget
of `E.bound`: after any number of iterations it is still running or has
returned, every command issued so far having completed its cycle. -/
theorem spec_commandLoop (E : EngineSpec β) (m : Nat) (h : Harness (Engine β))
    (hp : h.dut.st.phase = Phase.Idle) (hr : h.dut.inp.reset_i = 0) :
    ∃ (h' : Harness (Engine β)) (cs : List (Nat × Nat × In)),
      (commandLoop (specWrapper E) E.bound m h = Outcome.running h' ∨
        commandLoop (specWrapper E) E.bound m h = Outcome.returned 0 h') ∧
      h'.log = h.log ++ cs.flatMap cycleEvents ∧
      ∀ t ∈ cs, t.2.1 ≤ E.bound := by
  induction m generalizing h with
  | zero => exact ⟨h, [], Or.inl rfl, by simp, by simp⟩
  | succ m ih =>
    rcases loopBody_shape (specWrapper E) E.bound h with ⟨h1, hb, hlog, _⟩ | ⟨op, h2, hb, hlog, hdut⟩
    · exact ⟨h1, [], Or.inr (commandLoop_succ_returned _ _ m h h1 0 hb), by simp [hlog], by simp⟩
    · obtain ⟨n, h', hn, hrun, hlog', _, hp', hr'⟩ :=
        spec_cycle E (poke Pin.opcode_i ((specWrapper E).enc op) h2)
          (by show h2.dut.st.phase = Phase.Idle; rw [hdut]; exact hp)
          (by show h2.dut.inp.reset_i = 0; rw [hdut]; exact hr)
      obtain ⟨h'', cs, hres, hlog'', hle⟩ := ih h' hp' hr'
      refine ⟨h'', ((specWrapper E).enc op, n,
        (afterHandshake (specWrapper E) n
          (poke Pin.opcode_i ((specWrapper E).enc op) h2).dut).inp) :: cs, ?_, ?_, ?_⟩
      · rw [commandLoop_succ_running _ _ m h h' (hb.trans hrun)]
        exact hres
      · rw [hlog'', hlog', List.flatMap_cons]
        simp [poke, cycleEvents, hlog]
      · intro t ht
        rcases List.mem_cons.1 ht with h1 | h1
        · subst h1; exact hn
        · exact hle t h1

theorem spec_prologue (E : EngineSpec β) (input : List Char) :
    (prologue (specWrapper E) input).dut.st.phase = Phase.Idle ∧
    (prologue (specWrapper E) input).dut.inp.reset_i = 0 := by
  constructor
  · simp [prologue, poke, evalH, resetH, tickH, puts, specWrapper, Engine.step, In.set]
  · rfl

/-- C8: against the engine as the specification describes it (every command
takes a bounded number of internal steps and then asserts completion until
valid is cleared), the wait loop of every command terminates within the bound:
each command cycle entered with the engine idle completes, clears valid,
renders the board and leaves the engine idle for the next command; `main`, on
every input and after any number of iterations, is still running or has
returned, never stuck in a wait, and every command issued has been followed by
its render. -/
theorem spec_engine_completes (E : EngineSpec β) :
    (∀ h : Harness (Engine β), h.dut.st.phase = Phase.Idle → h.dut.inp.reset_i = 0 →
      ∃ n h', n ≤ E.bound ∧
        commandCycle (specWrapper E) E.bound h = Outcome.running h' ∧
        h'.log = h.log ++
          (handshakeEvents n ++ displayEvents (afterHandshake (specWrapper E) n h.dut).inp) ∧
        h'.dut.st.phase = Phase.Idle ∧ h'.dut.inp.reset_i = 0) ∧
    (∀ m input, ∃ (h' : Harness (Engine β)) (cs : List (Nat × Nat × In)),
      (main (specWrapper E) E.bound m input = Outcome.running h' ∨
        main (specWrapper E) E.bound m input = Outcome.returned 0 h') ∧
      h'.log = (prologue (specWrapper E) input).log ++ cs.flatMap cycleEvents ∧
      (∀ t ∈ cs, t.2.1 ≤ E.bound) ∧
      renderCount (cs.flatMap cycleEvents) = cs.length ∧
      (∀ cur, (issued cur (cs.flatMap cycleEvents)).length = cs.length)) ∧
    (∀ m input h', main (specWrapper E) E.bound m input ≠ Outcome.diverged h') := by
  have hmain : ∀ m input, ∃ (h' : Harness (Engine β)) (cs : List (Nat × Nat × In)),
      (main (specWrapper E) E.bound m input = Outcome.running h' ∨
        main (specWrapper E) E.bound m input = Outcome.returned 0 h') ∧
      h'.log = (prologue (specWrapper E) input).log ++ cs.flatMap cycleEvents ∧
      (∀ t ∈ cs, t.2.1 ≤ E.bound) := by
    intro m input
    exact spec_commandLoop E m (prologue (specWrapper E) input) (spec_prologue E input).1
      (spec_prologue E input).2
  refine ⟨?_, ?_, ?_⟩
  · intro h hp hr
    obtain ⟨n, h', hn, hrun, hlog, _, hp', hr'⟩ := spec_cycle E h hp hr
    exact ⟨n, h', hn, hrun, hlog, hp', hr'⟩
  · intro m input
    obtain ⟨h', cs, hres, hlog, hle⟩ := hmain m input
    refine ⟨h', cs, hres, hlog, hle, renderCount_cycles cs, ?_⟩
    intro cur
    rw [issued_cycles, List.length_map]
  · intro m input h' hdiv
    obtain ⟨h'', cs, hres, _, _⟩ := hmain m input
    rcases hres with h1 | h1 <;> rw [h1] at hdiv <;> cases hdiv

/-- Witness of C8 on the sample engine, idle after construction: its command
cycle completes within the bound and leaves it idle. -/
theorem spec_engine_completes_witness :
    (startOf (specWrapper sampleSpec) ['s']).dut.st.phase = Phase.Idle ∧
    (startOf (specWrapper sampleSpec) ['s']).dut.inp.reset_i = 0 ∧
    ∃ n h', n ≤ sampleSpec.bound ∧
      commandCycle (specWrapper sampleSpec) sampleSpec.bound (startOf (specWrapper sampleSpec) ['s'])
        = Outcome.running h' ∧
      h'.log = (startOf (specWrapper sampleSpec) ['s']).log ++
        (handshakeEvents n ++ displayEvents
          (afterHandshake (specWrapper sampleSpec) n
            (startOf (specWrapper sampleSpec) ['s']).dut).inp) ∧
      h'.dut.st.phase = Phase.Idle ∧ h'.dut.inp.reset_i = 0 :=
  ⟨rfl, rfl, (spec_engine_completes sampleSpec).1 (startOf (specWrapper sampleSpec) ['s']) rfl rfl⟩

/-! ## The render within the command cycle -/

theorem spec_keepsValid (E : EngineSpec β) : TickKeepsValid (specWrapper E) := by
  intro b d
  rfl

/-- C6: a command cycle renders the board exactly once, and only at its end.
Whenever the device asserts `done_o` within the budget of the wait, the cycle
completes with exactly one render.  In a completed cycle the wait loop has
left with `done_o` set on the device, and the render follows the reading of
the asserted `done_o`, one tick, the clearing of `opcode_v_i` and one further
tick; no `eval` of the cycle happens while the harness holds valid set, and
when `tick` leaves the pin alone every query is evaluated with
`opcode_v_i = 0`.  The cycle fails to complete only when `done_o` stays clear
through the whole budget, and then it has rendered nothing.  Over the whole
run of `main` the handshake monitor, which rejects a render or an `eval` made
while valid is set, accepts the log. -/
theorem render_after_handshake (W : TestWrapper σ) (fuel : Nat) (h : Harness σ) :
    ((∃ n h' inp, n ≤ fuel ∧ commandCycle W fuel h = Outcome.running h' ∧
      (ticks W (n + 1) { h.dut with inp := h.dut.inp.set Pin.opcode_v_i 1 }).out.done_o = true ∧
      (∀ j, j < n →
        (ticks W (j + 1) { h.dut with inp := h.dut.inp.set Pin.opcode_v_i 1 }).out.done_o
          = false) ∧
      h'.log = h.log ++ (handshakeEvents n ++ displayEvents inp) ∧
      (∃ pre, handshakeEvents n = pre ++
        [Ev.readDone true, Ev.tick, Ev.write Pin.opcode_v_i 0, Ev.tick]) ∧
      renderCount (handshakeEvents n) = 0 ∧
      renderCount (handshakeEvents n ++ displayEvents inp) = 1 ∧
      (∀ q, Ev.eval q ∉ handshakeEvents n) ∧
      (∀ c v q, (v, Ev.eval q) ∈ annotate c (handshakeEvents n ++ displayEvents inp) → v = 0) ∧
      (TickKeepsValid W → ∀ q, Ev.eval q ∈ handshakeEvents n ++ displayEvents inp →
        q.opcode_v_i = 0)) ∨
    (∃ h', commandCycle W fuel h = Outcome.diverged h' ∧
      (∀ j, j ≤ fuel →
        (ticks W (j + 1) { h.dut with inp := h.dut.inp.set Pin.opcode_v_i 1 }).out.done_o
          = false) ∧
      h'.log = h.log ++
        ([Ev.write Pin.opcode_v_i 1, Ev.tick] ++ waitEvents fuel ++ [Ev.readDone false]) ∧
      renderCount
        ([Ev.write Pin.opcode_v_i 1, Ev.tick] ++ waitEvents fuel ++ [Ev.readDone false]) = 0 ∧
      ∀ q, Ev.eval q ∉
        [Ev.write Pin.opcode_v_i 1, Ev.tick] ++ waitEvents fuel ++ [Ev.readDone false])) ∧
    (∀ k, k ≤ fuel →
      (ticks W (k + 1) { h.dut with inp := h.dut.inp.set Pin.opcode_v_i 1 }).out.done_o = true →
      ∃ n h' inp, n ≤ k ∧ commandCycle W fuel h = Outcome.running h' ∧
        h'.log = h.log ++ (handshakeEvents n ++ displayEvents inp) ∧
        renderCount (handshakeEvents n) = 0 ∧
        renderCount (handshakeEvents n ++ displayEvents inp) = 1) ∧
    (∀ m input, ∃ t, monitor (Proto.idle false) (main W fuel m input).state.log = some t) := by
  have hnoeval : ∀ n q, Ev.eval q ∉ handshakeEvents n := by
    intro n q hq
    unfold handshakeEvents at hq
    simp only [List.mem_append, List.mem_cons, List.not_mem_nil, or_false] at hq
    rcases hq with ((h1 | h1) | h1) | h1 | h1 | h1 | h1
    · cases h1
    · cases h1
    · exact waitEvents_no_eval n q h1
    · cases h1
    · cases h1
    · cases h1
    · cases h1
  have hcount : ∀ n, renderCount (handshakeEvents n) = 0 := by
    intro n
    unfold handshakeEvents
    rw [renderCount_append, renderCount_append, renderCount_waitEvents]
    rfl
  refine ⟨?_, ?_, fun m input => monitor_main W fuel m input⟩
  · rcases commandCycle_spec W fuel h with ⟨n, hn, hrun, hd, hbefore⟩ | ⟨hdiv, hnone⟩
    · left
      refine ⟨n, _, (afterHandshake W n h.dut).inp, hn, hrun, hd, hbefore, ?_, ⟨_, rfl⟩,
        hcount n, renderCount_cycle n _, hnoeval n, ?_, ?_⟩
      · rw [display_log, List.append_assoc]
      · intro c v q hq
        exact evals_cycle c n _ v q hq
      · intro hW q hq
        rcases List.mem_append.1 hq with h1 | h1
        · exact absurd h1 (hnoeval n q)
        · rw [(displayEvents_eval_pins _ q h1).1]
          exact poke_valid_afterHandshake W hW n h.dut
    · right
      refine ⟨_, hdiv, hnone, rfl, ?_, ?_⟩
      · rw [renderCount_append, renderCount_append, renderCount_waitEvents]
        rfl
      · intro q hq
        simp only [List.mem_append, List.mem_cons, List.not_mem_nil, or_false] at hq
        rcases hq with ((h1 | h1) | h1) | h1
        · cases h1
        · cases h1
        · exact waitEvents_no_eval fuel q h1
        · cases h1
  · intro k hk hdone
    obtain ⟨n, hn, _, _, hrun⟩ := commandCycle_stable W h k hdone
    refine ⟨n, _, (afterHandshake W n h.dut).inp, hn, hrun fuel hk, ?_, hcount n,
      renderCount_cycle n _⟩
    rw [display_log, List.append_assoc]

/-- Witness of C6 on the sample engine, whose `tick` leaves `opcode_v_i` alone
and which asserts `done_o` at the third tick with valid set: the cycle
completes after a real wait, renders once, and every query of the cycle is
evaluated with `opcode_v_i = 0`. -/
theorem render_after_handshake_witness :
    TickKeepsValid (specWrapper sampleSpec) ∧
    (ticks (specWrapper sampleSpec) (2 + 1)
      { (startOf (specWrapper sampleSpec) []).dut with
        inp := (startOf (specWrapper sampleSpec) []).dut.inp.set Pin.opcode_v_i 1 }).out.done_o
      = true ∧
    (∃ n h' inp, n ≤ 2 ∧
      commandCycle (specWrapper sampleSpec) 2 (startOf (specWrapper sampleSpec) [])
        = Outcome.running h' ∧
      h'.log = (startOf (specWrapper sampleSpec) []).log ++
        (handshakeEvents n ++ displayEvents inp) ∧
      renderCount (handshakeEvents n) = 0 ∧
      renderCount (handshakeEvents n ++ displayEvents inp) = 1) ∧
    (∃ n h' inp,
      commandCycle (specWrapper sampleSpec) 2 (startOf (specWrapper sampleSpec) [])
        = Outcome.running h' ∧
      h'.log = (startOf (specWrapper sampleSpec) []).log ++
        (handshakeEvents n ++ displayEvents inp) ∧
      ∀ q, Ev.eval q ∈ handshakeEvents n ++ displayEvents inp → q.opcode_v_i = 0) := by
  refine ⟨spec_keepsValid sampleSpec, by decide,
    (render_after_handshake (specWrapper sampleSpec) 2 (startOf (specWrapper sampleSpec) [])).2.1
      2 (le_refl 2) (by decide), ?_⟩
  rcases (render_after_handshake (specWrapper sampleSpec) 2
      (startOf (specWrapper sampleSpec) [])).1 with
    ⟨n, h', inp, _, hrun, _, _, hlog, _, _, _, _, _, hpin⟩ | ⟨h', _, hnone, _, _, _⟩
  · exact ⟨n, h', inp, hrun, hlog, hpin (spec_keepsValid sampleSpec)⟩
  · have hfalse := hnone 2 (le_refl 2)
    have htrue : (ticks (specWrapper sampleSpec) (2 + 1)
        { (startOf (specWrapper sampleSpec) []).dut with
          inp := (startOf (specWrapper sampleSpec) []).dut.inp.set Pin.opcode_v_i 1 }).out.done_o
        = true := by decide
    rw [htrue] at hfalse
    cases hfalse

/-! ## The command loop on the specified engine -/

/-- The specified engine always completes the commands the harness issues to
it while it is idle with reset released. -/
theorem spec_completesFrom (E : EngineSpec β) :
    CompletesFrom (specWrapper E)
      (fun d => d.st.phase = Phase.Idle ∧ d.inp.reset_i = 0) := by
  refine ⟨?_, ?_, ?_⟩
  · intro d v hR
    refine ⟨E.steps d.st.board v, ?_⟩
    have hc := spec_idle E
      { d with inp := (d.inp.set Pin.opcode_i v).set Pin.opcode_v_i 1 } hR.2
      (by simp [In.set]) hR.1
    rw [spec_ticks_done]
    simpa using hc
  · intro d v n hR hd _
    exact spec_afterHandshake E n { d with inp := d.inp.set Pin.opcode_i v } hR.2 hd
  · intro d v hR
    exact ⟨⟨hR.1, hR.2⟩, ⟨hR.1, hR.2⟩⟩

/-- Witness of C10: `main` on the sample engine with the input "n\nxq!": three
commands are issued, `eNew`, `eNop` for the newline and `eRotate`, the board
is rendered three times, and "!" stays unread. -/
theorem commandLoop_until_q_witness :
    CompletesFrom (specWrapper sampleSpec)
      (fun d => d.st.phase = Phase.Idle ∧ d.inp.reset_i = 0) ∧
    ∃ (F : Nat) (h' : Harness (Engine Nat)) (cs : List (Nat × Nat × In)),
      (∀ fuel, F ≤ fuel →
        commandLoop (specWrapper sampleSpec) fuel 4
          (prologue (specWrapper sampleSpec) ['n', '\n', 'x', 'q', '!'])
          = Outcome.returned 0 h') ∧
      h'.log = (prologue (specWrapper sampleSpec) ['n', '\n', 'x', 'q', '!']).log ++
        cs.flatMap cycleEvents ∧
      ['n', '\n', 'x'].map keySwitch = ['n', '\n', 'x'].map (fun c => some (promptBinding c)) ∧
      cs.map (fun t => t.1)
        = ['n', '\n', 'x'].map (fun c => (specWrapper sampleSpec).enc (promptBinding c)) ∧
      (∀ cur, issued cur (cs.flatMap cycleEvents)
        = ['n', '\n', 'x'].map (fun c => (specWrapper sampleSpec).enc (promptBinding c))) ∧
      renderCount (cs.flatMap cycleEvents) = ['n', '\n', 'x'].length ∧
      h'.stdin = ['!'] :=
  ⟨spec_completesFrom sampleSpec,
    commandLoop_until_q (specWrapper sampleSpec)
      (fun d => d.st.phase = Phase.Idle ∧ d.inp.reset_i = 0) (spec_completesFrom sampleSpec)
      ['n', '\n', 'x'] ['!'] (by decide) 4 (by decide)
      (prologue (specWrapper sampleSpec) ['n', '\n', 'x', 'q', '!'])
      (spec_prologue sampleSpec ['n', '\n', 'x', 'q', '!']) rfl⟩

end Tetris
